import Mathlib

/-!
# Verification of the Cheatdle information-theoretic Wordle engine

Shallow embedding of `app.py`: the pattern engine
(`generate_pattern_matrix`, `get_pattern`), the possibility reducer
(`get_possible_words`), the prior model (`get_frequency_based_priors`,
`get_weights`), the entropy scorer (`get_pattern_distributions`,
`entropy_of_distributions`, `get_entropies`), the guess selector
(`optimal_guess`, `get_next_guess`) and the game-state update
(`input_guess`).  Words are strings, machine `uint8` arithmetic is
modelled as `Nat` with explicit `% 256`, mutable numpy arrays become
explicit state passing, and Python exceptions become `Option`.
-/

namespace Cheatdle

/-- `MISPLACED = np.uint8(1)`: digit for a misplaced (yellow) letter. -/
def MISPLACED : Nat := 1

/-- `EXACT = np.uint8(2)`: digit for an exact (green) letter. -/
def EXACT : Nat := 2

/-- `words_to_int_arrays`, one word: the list of its character codes as
unsigned 8-bit integers (`dtype=np.uint8`, hence the `% 256`). -/
def wordToNats (w : String) : List Nat :=
  w.data.map (fun c => c.toNat % 256)

/-- State of the single-pair pattern computation inside
`generate_pattern_matrix`: the letter-equality grid
(`equality_grid[a,b,·,·]` for the fixed word pair) and the per-position
pattern digits (`full_pattern_matrix[a,b,·]`). -/
structure PEState where
  grid : Nat → Nat → Bool
  pat : List Nat

/-- Point update of one cell of the equality grid. -/
def gridUpd (g : Nat → Nat → Bool) (i j : Nat) (v : Bool) : Nat → Nat → Bool :=
  fun a b => if a = i ∧ b = j then v else g a b

/-- The inner `for k in range(nl)` loop that, once a match at guess row `i`
and answer column `j` is consumed, clears `equality_grid[k, j]` and
`equality_grid[i, k]` for every `k`. -/
def killRC (nl i j : Nat) (g : Nat → Nat → Bool) : Nat → Nat → Bool :=
  (List.range nl).foldl (fun g' k => gridUpd (gridUpd g' k j false) i k false) g

/-- One iteration of the green (exact-match) pass at position `i`:
`matches = equality_grid[i, i]`; on a match the digit becomes `EXACT` and
row `i` / column `i` of the grid are cleared. -/
def greenStep (nl : Nat) (st : PEState) (i : Nat) : PEState :=
  if st.grid i i then
    { pat := st.pat.set i EXACT, grid := killRC nl i i st.grid }
  else st

/-- The green pass of `generate_pattern_matrix` (`for i in range(nl)`). -/
def greenPass (nl : Nat) (st : PEState) : PEState :=
  (List.range nl).foldl (greenStep nl) st

/-- One iteration of the yellow (misplaced) pass at guess position `i`,
answer position `j`: on a surviving equality the digit becomes
`MISPLACED` and row `i` / column `j` are cleared. -/
def yellowStep (nl : Nat) (st : PEState) (ij : Nat × Nat) : PEState :=
  if st.grid ij.1 ij.2 then
    { pat := st.pat.set ij.1 MISPLACED, grid := killRC nl ij.1 ij.2 st.grid }
  else st

/-- Row-major enumeration of `itertools.product(range(nl), range(nl))`. -/
def rcPairs (nl : Nat) : List (Nat × Nat) :=
  (List.range nl).foldr (fun i acc => ((List.range nl).map (fun j => (i, j))) ++ acc) []

/-- The yellow pass of `generate_pattern_matrix`. -/
def yellowPass (nl : Nat) (st : PEState) : PEState :=
  (rcPairs nl).foldl (yellowStep nl) st

/-- The initial state: `equality_grid[i, j] = (guess[i] == answer[j])`,
all pattern digits zero. -/
def initState (guess answer : List Nat) : PEState :=
  { grid := fun i j => guess.getD i 0 == answer.getD j 0,
    pat := List.replicate guess.length 0 }

/-- The per-position digit vector `full_pattern_matrix[a, b]` for a single
(guess, answer) pair: green pass, then yellow pass. -/
def full_pattern (guess answer : List Nat) : List Nat :=
  (yellowPass guess.length (greenPass guess.length (initState guess answer))).pat

/-- `np.dot(full_pattern_matrix, (3**np.arange(nl)).astype(np.uint8))` in
uint8 arithmetic: every product and every running sum is reduced mod 256. -/
def patternValue (pat : List Nat) : Nat :=
  ((List.range pat.length).map (fun i => pat.getD i 0 * 3 ^ i % 256)).foldl
    (fun a t => (a + t) % 256) 0

/-- `generate_pattern_matrix([guess], [answer])[0, 0]`. -/
def generate_pattern (guess answer : List Nat) : Nat :=
  patternValue (full_pattern guess answer)

/-- `get_pattern(guess, answer)`: the ternary-encoded feedback pattern for
one guess against one answer (the on-disk pattern-matrix cache is a pure
memoization of exactly this value, so it is modelled by the direct
computation). -/
def pattern_of (guess answer : String) : Nat :=
  generate_pattern (wordToNats guess) (wordToNats answer)

/-- `get_possible_words(guess, pattern, word_list)`: keep exactly the
words whose pattern against the guess equals the observed pattern
(numpy boolean-mask selection preserves list order). -/
def get_possible_words (guess : String) (pattern : Nat) (word_list : List String) :
    List String :=
  word_list.filter (fun w => pattern_of guess w == pattern)

/-- Python dict lookup `d[w]`: `none` models the `KeyError` raised when
the key is missing. -/
def dictLookup {α : Type} (w : String) (d : List (String × α)) : Option α :=
  match d with
  | [] => none
  | kv :: rest => if kv.1 = w then some kv.2 else dictLookup w rest

/-- `sigmoid(x) = 1 / (1 + exp(-x))`. -/
noncomputable def sigmoid (x : ℝ) : ℝ := 1 / (1 + Real.exp (-x))

/-- `np.linspace(start, stop, num)` with inclusive endpoints. -/
noncomputable def linspace (start stop : ℝ) (num : Nat) : List ℝ :=
  (List.range num).map (fun i : Nat => start + (stop - start) * (i : ℝ) / ((num : ℝ) - 1))

/-- `np.argsort(xs)`: the indices of `xs` sorted by their values
(modelled with a stable sort). -/
noncomputable def np_argsort (xs : List ℝ) : List Nat :=
  (List.range xs.length).insertionSort (fun i j => xs.getD i 0 ≤ xs.getD j 0)

/-- `np.argmax(xs)`: first index attaining the maximum (`0` on `[]`). -/
noncomputable def np_argmax (xs : List ℝ) : Nat :=
  (List.range xs.length).foldl
    (fun best i => if xs.getD best 0 < xs.getD i 0 then i else best) 0

/-- `get_frequency_based_priors(n_common, width_under_sigmoid)`: rank the
frequency-table words by frequency ascending, place them evenly on a
segment of width `width_under_sigmoid` positioned so that the `n_common`
most common words are positive, and apply the sigmoid.  The resulting
dict maps exactly the frequency-table words. -/
noncomputable def get_frequency_based_priors (freq_map : List (String × ℝ))
    (n_common : Nat) (width_under_sigmoid : ℝ) : List (String × ℝ) :=
  let words := freq_map.map Prod.fst
  let freqs := freq_map.map Prod.snd
  let sorted_words := (np_argsort freqs).map (fun i => words.getD i "")
  let c := width_under_sigmoid * (-(1 / 2) + (n_common : ℝ) / (words.length : ℝ))
  let xs := linspace (c - width_under_sigmoid / 2) (c + width_under_sigmoid / 2)
    words.length
  (sorted_words.zip xs).map (fun wx => (wx.1, sigmoid wx.2))

/-- `get_weights(words, priors)`: look every word up in the priors dict
(`none` = `KeyError`), then normalize; an all-zero total yields the zero
vector instead of dividing. -/
noncomputable def get_weights (words : List String) (priors : List (String × ℝ)) :
    Option (List ℝ) :=
  (words.mapM (fun w => dictLookup w priors)).map (fun frequencies =>
    if frequencies.sum = 0 then List.replicate frequencies.length 0
    else frequencies.map (fun f => f / frequencies.sum))

/-- One row of `get_pattern_distributions`: bucket `p` accumulates the
weights of the possibilities whose pattern for the guess is `p`. -/
noncomputable def get_pattern_distribution (guess : String)
    (possible_words : List String) (weights : List ℝ) : Nat → ℝ :=
  fun p => ∑ j ∈ Finset.range possible_words.length,
    if pattern_of guess (possible_words.getD j "") = p then weights.getD j 0 else 0

/-- The total mass of a distribution over the `3^5` pattern buckets. -/
noncomputable def distTotal (d : Nat → ℝ) : ℝ := ∑ p ∈ Finset.range 243, d p

/-- `entropy_of_distributions` row: `scipy.stats.entropy(d, base=2)`,
which normalizes by the total and returns the base-2 Shannon entropy
(with the `0 · log 0 = 0` convention, matched by `Real.log 0 = 0`). -/
noncomputable def entropy_of_distribution (d : Nat → ℝ) : ℝ :=
  -∑ p ∈ Finset.range 243, d p / distTotal d * Real.logb 2 (d p / distTotal d)

/-- `get_entropies(allowed_words, possible_words, weights)`: zero vector
when the weights sum to zero, otherwise one entropy per allowed guess. -/
noncomputable def get_entropies (allowed_words possible_words : List String)
    (weights : List ℝ) : List ℝ :=
  if weights.sum = 0 then List.replicate allowed_words.length 0
  else allowed_words.map (fun g =>
    entropy_of_distribution (get_pattern_distribution g possible_words weights))

/-- Python `sorted` on floats (stable, ascending). -/
noncomputable def pysorted (xs : List ℝ) : List ℝ := xs.insertionSort (· ≤ ·)

/-- Python slice `[-10:]`: the last ten elements (all of them when the
list is shorter). -/
def lastTen {α : Type} (xs : List α) : List α := xs.drop (xs.length - 10)

/-- `top_ent = sorted(ents)[-10:]`: the ten largest entropies, ascending. -/
noncomputable def top_ent (ents : List ℝ) : List ℝ := lastTen (pysorted ents)

/-- `top_i = sorted(np.argsort(ents)[-10:])[::-1]`: the indices of the ten
largest entropies, sorted by index descending. -/
noncomputable def top_i (ents : List ℝ) : List Nat :=
  ((lastTen (np_argsort ents)).insertionSort (· ≤ ·)).reverse

/-- `top_guesses = [allowed_words[num] for num in top_i]`. -/
noncomputable def top_guesses (allowed_words : List String) (ents : List ℝ) :
    List String :=
  (top_i ents).map (fun n => allowed_words.getD n "")

/-- The `for i in range(10)` suggestion loop: reads `tg[i]` and `te[i]`
for each `i`; a missing index is the Python `IndexError` (`none`). -/
def suggLoop {α β : Type} : List Nat → List α → List β → Option (List (α × β))
  | [], _, _ => some []
  | i :: rest, tg, te =>
    match tg.get? i, te.get? i with
    | some g, some e => (suggLoop rest tg te).map (fun tail => (g, e) :: tail)
    | _, _ => none

/-- `st.session_state["suggestions"]`: the ten `(top_guesses[i], top_ent[i])`
pairs, or `none` when an index is out of range. -/
def buildSuggestions {α β : Type} (tg : List α) (te : List β) :
    Option (List (α × β)) :=
  suggLoop (List.range 10) tg te

/-- `optimal_guess(allowed_words, possible_words, priors)`: the singleton
shortcut returns the unique possibility untouched (`none` suggestions =
session suggestions not written); otherwise weights, entropies, the
suggestion loop, and `allowed_words[np.argmax(ents)]`.  A `KeyError` in
`get_weights` or an `IndexError` in the suggestion loop is `none`. -/
noncomputable def optimal_guess (allowed_words possible_words : List String)
    (priors : List (String × ℝ)) : Option (String × Option (List (String × ℝ))) :=
  if possible_words.length = 1 then some (possible_words.getD 0 "", none)
  else
    match get_weights possible_words priors with
    | none => none
    | some weights =>
      let ents := get_entropies allowed_words possible_words weights
      match buildSuggestions (top_guesses allowed_words ents) (top_ent ents) with
      | none => none
      | some sugg => some (allowed_words.getD (np_argmax ents) "", some sugg)

/-- `pattern_to_int_list(pattern)`: five base-3 digits, least significant
first, via the running `curr % 3` / `curr // 3` loop. -/
def pattern_to_int_list (pattern : Nat) : List Nat :=
  ((List.range 5).foldl (fun st _ => (st.1 / 3, st.2 ++ [st.1 % 3]))
    ((pattern, []) : Nat × List Nat)).2

/-- The memoization key: concatenation of each guess with the decimal
digits of its pattern. -/
def phash (guesses : List String) (patterns : List Nat) : String :=
  String.join ((guesses.zip patterns).map (fun gp =>
    gp.1 ++ String.join ((pattern_to_int_list gp.2).map (fun d => toString d))))

/-- The solver-side session state used by `get_next_guess`. -/
structure SolverSession where
  next_guess_map : List (String × String)
  dict_answers : List String
  priors : List (String × ℝ)

/-- `get_next_guess(guesses, patterns, possibilities)`: look the history
hash up in `next_guess_map`; on a miss run `optimal_guess` and store the
word (an exception stores nothing). -/
noncomputable def get_next_guess (s : SolverSession) (guesses : List String)
    (patterns : List Nat) (possibilities : List String) :
    Option String × SolverSession :=
  let h := phash guesses patterns
  match dictLookup h s.next_guess_map with
  | some w => (some w, s)
  | none =>
    match optimal_guess s.dict_answers possibilities s.priors with
    | some wsugg =>
      (some wsugg.1, { s with next_guess_map := s.next_guess_map ++ [(h, wsugg.1)] })
    | none => (none, s)

/-- The game-side session state touched by `input_guess` (the dataframe
mirrors `table` and is omitted; `errors` records the `st.error` calls). -/
structure GameState where
  dict_guessing : List String
  answer : String
  guesses : List String
  unguessed : String
  found : String
  table : List (List String)
  game_over : Bool
  game_won : Bool
  guessField : String
  errors : List String

/-- `update_unguessed(guess)`: drop every guessed letter. -/
def update_unguessed (unguessed guess : String) : String :=
  ⟨unguessed.data.filter (fun c => !(guess.data.contains c))⟩

/-- `update_found(guess)`: append the new letters present in the answer,
then sort. -/
def update_found (found answer guess : String) : String :=
  ⟨(guess.data.foldl (fun acc c =>
      if !(acc.contains c) && answer.data.contains c then acc ++ [c] else acc)
      found.data).insertionSort (· ≤ ·)⟩

/-- `initialize_table()`: six empty five-cell rows. -/
def initialize_table : List (List String) :=
  List.replicate 6 (List.replicate 5 "")

/-- Writing guess number `n` (1-based row key `Guess n`) into the board. -/
def setTableRow (table : List (List String)) (n : Nat) (guess : String) :
    List (List String) :=
  table.set (n - 1) ((List.range 5).map (fun i => String.singleton (guess.data.getD i ' ')))

/-- `input_guess()`: uppercases the input, appends it to `guesses`
(before any validation), then on a valid five-letter dictionary word
updates letters, board and flags; otherwise reports an error.  The input
field is cleared in every case. -/
def pyUpper (s : String) : String := ⟨s.data.map Char.toUpper⟩

def input_guess (s : GameState) : GameState :=
  let guess := pyUpper s.guessField
  let s1 := { s with guesses := s.guesses ++ [guess] }
  let s2 :=
    if guess.length = 5 then
      if s1.dict_guessing.contains guess then
        let n := s1.guesses.length
        { s1 with
          unguessed := update_unguessed s1.unguessed guess,
          found := update_found s1.found s1.answer guess,
          table := setTableRow s1.table n guess,
          game_over := guess == s1.answer || s1.guesses.length == 6,
          game_won := guess == s1.answer }
      else { s1 with errors := s1.errors ++ ["Please enter a valid guess."] }
    else { s1 with errors := s1.errors ++ ["Please enter a 5-letter word."] }
  { s2 with guessField := "" }

/-- A fresh sample game state with a given pending input, used to
instantiate the `input_guess` theorems. -/
def sampleState (gf : String) : GameState :=
  { dict_guessing := ["CRANE"], answer := "CRANE", guesses := [],
    unguessed := "ABCDEFGHIJKLMNOPQRSTUVWXYZ", found := "",
    table := initialize_table, game_over := false, game_won := false,
    guessField := gf, errors := [] }

/-- A fresh solver session with an empty memo cache, used to instantiate
the memoization theorem. -/
def sampleSession : SolverSession :=
  { next_guess_map := [], dict_answers := ["CRANE"], priors := [] }

/-- The mathematical (non-wrapping) value of the base-3 digit encoding,
used to state that the uint8 dot product never wraps. -/
def patternValueNoMod (pat : List Nat) : Nat :=
  ((List.range pat.length).map (fun i => pat.getD i 0 * 3 ^ i)).sum

/-- The state after both passes of the single-pair pattern computation. -/
def finalState (guess answer : List Nat) : PEState :=
  yellowPass guess.length (greenPass guess.length (initState guess answer))

/-- Guess row `i` carries no surviving equalities (in range). -/
def rowDead (g : Nat → Nat → Bool) (nl i : Nat) : Prop :=
  ∀ k, k < nl → g i k = false

/-- Answer column `j` carries no surviving equalities (in range). -/
def colDead (g : Nat → Nat → Bool) (nl j : Nat) : Prop :=
  ∀ k, k < nl → g k j = false

/-- Invariant of the two matching passes: surviving grid equalities are
true letter equalities; a marked guess position has a dead row; and `f`
assigns to every marked guess position a claimed answer position holding
the same letter, with a dead column, injectively (each answer occurrence
is claimed at most once). -/
structure PatInv (guess answer : List Nat) (f : Nat → Nat) (st : PEState) : Prop where
  grid_imp : ∀ a b, st.grid a b = true → guess.getD a 0 = answer.getD b 0
  pat_len : st.pat.length = guess.length
  pat_le : ∀ x ∈ st.pat, x ≤ 2
  row_dead : ∀ i, st.pat.getD i 0 ≠ 0 → rowDead st.grid guess.length i
  claim_lt : ∀ i, st.pat.getD i 0 ≠ 0 → f i < guess.length
  claim_eq : ∀ i, st.pat.getD i 0 ≠ 0 → answer.getD (f i) 0 = guess.getD i 0
  claim_dead : ∀ i, st.pat.getD i 0 ≠ 0 → colDead st.grid guess.length (f i)
  claim_inj : ∀ i i', st.pat.getD i 0 ≠ 0 → st.pat.getD i' 0 ≠ 0 → i ≠ i' → f i ≠ f i'

/-- A ten-word allowed-guess corpus whose only distinguishing guess (for
the sample possibility pair below) sits at the last corpus index. -/
def cexAllowed : List String :=
  ["CCCCC", "DDDDD", "EEEEE", "FFFFF", "GGGGG", "HHHHH", "IIIII", "JJJJJ",
    "KKKKK", "AAAAA"]

/-- A two-word possibility set. -/
def cexPossible : List String := ["AAAAA", "BBBBB"]

/-- Uniform priors over the sample possibility pair. -/
noncomputable def cexPriors : List (String × ℝ) := [("AAAAA", 1), ("BBBBB", 1)]

/-! ## Claim theorems -/

lemma killFold_eval (i j : Nat) (ks : List Nat) :
    ∀ (g : Nat → Nat → Bool) (a b : Nat),
    (ks.foldl (fun g' k => gridUpd (gridUpd g' k j false) i k false) g) a b =
      if (a = i ∧ b ∈ ks) ∨ (b = j ∧ a ∈ ks) then false else g a b := by
  induction ks with
  | nil => intro g a b; simp
  | cons k rest ih =>
    intro g a b
    rw [List.foldl_cons, ih]
    by_cases hai : a = i <;> by_cases hbj : b = j <;>
      by_cases hbk : b = k <;> by_cases hak : a = k <;>
      by_cases hbr : b ∈ rest <;> by_cases har : a ∈ rest <;>
      simp_all [gridUpd]

lemma killRC_eval (nl i j : Nat) (g : Nat → Nat → Bool) (a b : Nat) :
    killRC nl i j g a b =
      if (a = i ∧ b < nl) ∨ (b = j ∧ a < nl) then false else g a b := by
  rw [killRC, killFold_eval]
  simp [List.mem_range]

lemma killRC_le (nl i j : Nat) (g : Nat → Nat → Bool) (a b : Nat)
    (h : killRC nl i j g a b = true) : g a b = true := by
  rw [killRC_eval] at h
  by_cases hc : (a = i ∧ b < nl) ∨ (b = j ∧ a < nl)
  · rw [if_pos hc] at h; exact absurd h (by simp)
  · rwa [if_neg hc] at h

lemma rowDead_killRC {g : Nat → Nat → Bool} {nl m : Nat} (i j : Nat)
    (h : rowDead g nl m) : rowDead (killRC nl i j g) nl m := by
  intro k hk
  cases hx : killRC nl i j g m k
  · rfl
  · exact absurd ((killRC_le nl i j g m k hx).symm.trans (h k hk)) (by simp)

lemma colDead_killRC {g : Nat → Nat → Bool} {nl m : Nat} (i j : Nat)
    (h : colDead g nl m) : colDead (killRC nl i j g) nl m := by
  intro k hk
  cases hx : killRC nl i j g k m
  · rfl
  · exact absurd ((killRC_le nl i j g k m hx).symm.trans (h k hk)) (by simp)

lemma rowDead_killRC_self (nl i j : Nat) (g : Nat → Nat → Bool) :
    rowDead (killRC nl i j g) nl i := by
  intro k hk
  rw [killRC_eval, if_pos (Or.inl ⟨rfl, hk⟩)]

lemma colDead_killRC_self (nl i j : Nat) (g : Nat → Nat → Bool) :
    colDead (killRC nl i j g) nl j := by
  intro k hk
  rw [killRC_eval, if_pos (Or.inr ⟨rfl, hk⟩)]

lemma getD_set_lt (l : List Nat) (i v m : Nat) (h : i < l.length) :
    (l.set i v).getD m 0 = if m = i then v else l.getD m 0 := by
  by_cases hmi : m = i
  · subst hmi
    simp [List.getD_eq_getElem?_getD, List.getElem?_set, h]
  · simp [List.getD_eq_getElem?_getD, List.getElem?_set, Ne.symm hmi, hmi]

lemma getD_replicate_zero (n m : Nat) : (List.replicate n (0 : Nat)).getD m 0 = 0 := by
  rcases Nat.lt_or_ge m n with h | h
  · simp [List.getD_eq_getElem?_getD, List.getElem?_replicate, h]
  · simp [List.getD_eq_getElem?_getD, List.getElem?_replicate, Nat.not_lt.mpr h]

/-- Consuming a live equality at `(i, j)` preserves the invariant:
`i` was necessarily unmarked, and the new claim map sends it to `j`. -/
lemma patInv_fire (guess answer : List Nat) (f : Nat → Nat) (st : PEState)
    (inv : PatInv guess answer f st) (i j v : Nat) (hi : i < guess.length)
    (hj : j < guess.length) (hg : st.grid i j = true) (hv : v = 1 ∨ v = 2) :
    ∃ f', PatInv guess answer f'
      { pat := st.pat.set i v, grid := killRC guess.length i j st.grid } := by
  have hilen : i < st.pat.length := inv.pat_len ▸ hi
  have hunmarked : st.pat.getD i 0 = 0 := by
    by_contra hmarked
    exact absurd ((inv.row_dead i hmarked j hj).symm.trans hg) (by simp)
  have hvne : v ≠ 0 := by omega
  have hget : ∀ m, (st.pat.set i v).getD m 0 = if m = i then v else st.pat.getD m 0 :=
    fun m => getD_set_lt st.pat i v m hilen
  refine ⟨fun m => if m = i then j else f m, ?_, ?_, ?_, ?_, ?_, ?_, ?_, ?_⟩
  · intro a b hab
    exact inv.grid_imp a b (killRC_le _ _ _ _ _ _ hab)
  · rw [List.length_set]; exact inv.pat_len
  · intro x hx
    rcases List.mem_or_eq_of_mem_set hx with hx' | rfl
    · exact inv.pat_le x hx'
    · omega
  · intro m hm
    rw [hget] at hm
    by_cases hmi : m = i
    · subst hmi; exact rowDead_killRC_self _ _ _ _
    · rw [if_neg hmi] at hm
      exact rowDead_killRC i j (inv.row_dead m hm)
  · intro m hm
    rw [hget] at hm
    by_cases hmi : m = i
    · subst hmi; rw [if_pos rfl]; exact hj
    · rw [if_neg hmi] at hm; rw [if_neg hmi]; exact inv.claim_lt m hm
  · intro m hm
    rw [hget] at hm
    by_cases hmi : m = i
    · rw [if_pos hmi, hmi]; exact (inv.grid_imp i j hg).symm
    · rw [if_neg hmi] at hm; rw [if_neg hmi]; exact inv.claim_eq m hm
  · intro m hm
    rw [hget] at hm
    by_cases hmi : m = i
    · subst hmi; rw [if_pos rfl]; exact colDead_killRC_self _ _ _ _
    · rw [if_neg hmi] at hm; rw [if_neg hmi]
      exact colDead_killRC i j (inv.claim_dead m hm)
  · intro m m' hm hm' hne
    rw [hget] at hm hm'
    by_cases hmi : m = i <;> by_cases hmi' : m' = i
    · exact absurd (hmi.trans hmi'.symm) hne
    · rw [if_pos hmi, if_neg hmi']
      rw [if_neg hmi'] at hm'
      intro hcontra
      have hdead := inv.claim_dead m' hm' i hi
      rw [← hcontra, hg] at hdead
      exact Bool.noConfusion hdead
    · rw [if_neg hmi, if_pos hmi']
      rw [if_neg hmi] at hm
      intro hcontra
      have hdead := inv.claim_dead m hm i hi
      rw [hcontra, hg] at hdead
      exact Bool.noConfusion hdead
    · rw [if_neg hmi] at hm ⊢
      rw [if_neg hmi'] at hm' ⊢
      exact inv.claim_inj m m' hm hm' hne

lemma patInv_greenStep (guess answer : List Nat) (f : Nat → Nat) (st : PEState)
    (inv : PatInv guess answer f st) (i : Nat) (hi : i < guess.length) :
    ∃ f', PatInv guess answer f' (greenStep guess.length st i) := by
  rw [greenStep]
  by_cases hg : st.grid i i = true
  · rw [if_pos hg]
    exact patInv_fire guess answer f st inv i i EXACT hi hi hg (Or.inr rfl)
  · rw [if_neg hg]
    exact ⟨f, inv⟩

lemma patInv_yellowStep (guess answer : List Nat) (f : Nat → Nat) (st : PEState)
    (inv : PatInv guess answer f st) (p : Nat × Nat) (hp1 : p.1 < guess.length)
    (hp2 : p.2 < guess.length) :
    ∃ f', PatInv guess answer f' (yellowStep guess.length st p) := by
  rw [yellowStep]
  by_cases hg : st.grid p.1 p.2 = true
  · rw [if_pos hg]
    exact patInv_fire guess answer f st inv p.1 p.2 MISPLACED hp1 hp2 hg (Or.inl rfl)
  · rw [if_neg hg]
    exact ⟨f, inv⟩

lemma patInv_foldl_green (guess answer : List Nat) (ks : List Nat)
    (hks : ∀ k ∈ ks, k < guess.length) :
    ∀ (st : PEState) (f : Nat → Nat), PatInv guess answer f st →
    ∃ f', PatInv guess answer f' (ks.foldl (greenStep guess.length) st) := by
  induction ks with
  | nil => intro st f inv; exact ⟨f, inv⟩
  | cons k rest ih =>
    intro st f inv
    obtain ⟨f1, inv1⟩ := patInv_greenStep guess answer f st inv k
      (hks k (List.mem_cons_self k rest))
    exact ih (fun k' hk' => hks k' (List.mem_cons_of_mem k hk')) _ f1 inv1

lemma patInv_foldl_yellow (guess answer : List Nat) (ps : List (Nat × Nat))
    (hps : ∀ p ∈ ps, p.1 < guess.length ∧ p.2 < guess.length) :
    ∀ (st : PEState) (f : Nat → Nat), PatInv guess answer f st →
    ∃ f', PatInv guess answer f' (ps.foldl (yellowStep guess.length) st) := by
  induction ps with
  | nil => intro st f inv; exact ⟨f, inv⟩
  | cons p rest ih =>
    intro st f inv
    obtain ⟨f1, inv1⟩ := patInv_yellowStep guess answer f st inv p
      (hps p (List.mem_cons_self p rest)).1 (hps p (List.mem_cons_self p rest)).2
    exact ih (fun p' hp' => hps p' (List.mem_cons_of_mem p hp')) _ f1 inv1

lemma mem_foldr_pairs (inner : List Nat) (l : List Nat) (p : Nat × Nat) :
    p ∈ l.foldr (fun i acc => (inner.map (fun j => (i, j))) ++ acc) [] ↔
      p.1 ∈ l ∧ p.2 ∈ inner := by
  induction l with
  | nil => simp
  | cons a l ih =>
    simp only [List.foldr_cons, List.mem_append, List.mem_map, ih, List.mem_cons]
    constructor
    · rintro (⟨j, hj, rfl⟩ | ⟨h1, h2⟩)
      · exact ⟨Or.inl rfl, hj⟩
      · exact ⟨Or.inr h1, h2⟩
    · rintro ⟨h1 | h1, h2⟩
      · exact Or.inl ⟨p.2, h2, by rw [← h1]⟩
      · exact Or.inr ⟨h1, h2⟩

lemma mem_rcPairs {nl : Nat} {p : Nat × Nat} (hp : p ∈ rcPairs nl) :
    p.1 < nl ∧ p.2 < nl := by
  rw [rcPairs, mem_foldr_pairs, List.mem_range, List.mem_range] at hp
  exact hp

lemma patInv_init (guess answer : List Nat) :
    PatInv guess answer (fun _ => 0) (initState guess answer) := by
  have hzero : ∀ m, (List.replicate guess.length (0 : Nat)).getD m 0 = 0 :=
    fun m => getD_replicate_zero guess.length m
  refine ⟨?_, ?_, ?_, ?_, ?_, ?_, ?_, ?_⟩
  · intro a b hab
    simpa [initState] using hab
  · exact List.length_replicate _ _
  · intro x hx
    rw [List.eq_of_mem_replicate hx]; omega
  · intro i hi; exact absurd (hzero i) hi
  · intro i hi; exact absurd (hzero i) hi
  · intro i hi; exact absurd (hzero i) hi
  · intro i hi; exact absurd (hzero i) hi
  · intro i i' hi; exact absurd (hzero i) hi

lemma finalState_inv (guess answer : List Nat) :
    ∃ f, PatInv guess answer f (finalState guess answer) := by
  obtain ⟨f1, inv1⟩ := patInv_foldl_green guess answer (List.range guess.length)
    (fun k hk => List.mem_range.mp hk) (initState guess answer) (fun _ => 0)
    (patInv_init guess answer)
  exact patInv_foldl_yellow guess answer (rcPairs guess.length)
    (fun p hp => mem_rcPairs hp) _ f1 inv1

lemma map_range_getD {α : Type} (d : α) (l : List α) :
    (List.range l.length).map (fun i => l.getD i d) = l := by
  induction l with
  | nil => simp
  | cons a t ih =>
    rw [List.length_cons, List.range_succ_eq_map, List.map_cons, List.map_map]
    rw [show ((fun i => (a :: t).getD i d) ∘ (· + 1)) = fun i => t.getD i d from
      funext fun i => by simp]
    rw [ih]
    simp

lemma count_indices (l : List Nat) (c : Nat) :
    ((List.range l.length).filter (fun j => l.getD j 0 == c)).length = l.count c := by
  rw [← List.countP_eq_length_filter]
  conv_rhs => rw [← map_range_getD 0 l]
  rw [List.count_eq_countP, List.countP_map]
  rfl


/-- C5: for every allowed-guess list and priors, a singleton possibility
set `[W]` makes the Guess Selector return `W` directly — no entropy is
computed (the suggestions slot stays untouched) and neither the priors
nor `W`'s weight are consulted. -/
theorem optimal_guess_singleton (allowed : List String) (W : String)
    (priors : List (String × ℝ)) :
    optimal_guess allowed [W] priors = some (W, none) := rfl

/-- C3: the Possibility Reducer returns exactly the in-order subset of
the input whose pattern against the guess equals the observed pattern;
hence it never grows, and reducing with the pattern the true answer
actually produces never removes the true answer. -/
theorem get_possible_words_spec (guess : String) (pattern : Nat)
    (possibilities : List String) (answer : String) :
    (get_possible_words guess pattern possibilities).Sublist possibilities ∧
    (∀ w, w ∈ get_possible_words guess pattern possibilities ↔
      w ∈ possibilities ∧ pattern_of guess w = pattern) ∧
    (get_possible_words guess pattern possibilities).length ≤ possibilities.length ∧
    (answer ∈ possibilities →
      answer ∈ get_possible_words guess (pattern_of guess answer) possibilities) := by
  refine ⟨List.filter_sublist _, fun w => ?_, (List.filter_sublist _).length_le, fun h => ?_⟩
  · simp [get_possible_words, List.mem_filter]
  · simp [get_possible_words, List.mem_filter, h]

/-- Concrete instance discharging the hypotheses of
`get_possible_words_spec`. -/
theorem get_possible_words_spec_witness :
    ("SLATE" ∈ get_possible_words "CRANE" (pattern_of "CRANE" "SLATE")
        ["CRANE", "SLATE", "TRACE"]) ∧
    (get_possible_words "CRANE" (pattern_of "CRANE" "SLATE")
        ["CRANE", "SLATE", "TRACE"]).length ≤ 3 := by
  refine ⟨(get_possible_words_spec "CRANE" (pattern_of "CRANE" "SLATE")
      ["CRANE", "SLATE", "TRACE"] "SLATE").2.2.2 (by decide), ?_⟩
  exact (get_possible_words_spec "CRANE" (pattern_of "CRANE" "SLATE")
      ["CRANE", "SLATE", "TRACE"] "SLATE").2.2.1

/-- C9 counterexample: submitting a guess that is not in the allowed
corpus DOES mutate game state — the uppercased guess is appended to the
guess history before validation, so the history is no longer empty. -/
theorem input_guess_mutates_guess_history :
    (input_guess (sampleState "zzzzz")).guesses = ["ZZZZZ"] ∧
    (input_guess (sampleState "zzzzz")).guesses ≠ [] := by decide

/-- C9 (amended): a rejected submission (wrong length or unknown word)
reports an error and leaves the letter-tracking strings, the board table
and the game-over flags unchanged, but the uppercased guess is still
appended to the guess history (and the input field is cleared). -/
theorem input_guess_invalid (s : GameState)
    (h : ¬ ((pyUpper s.guessField).length = 5 ∧
      pyUpper s.guessField ∈ s.dict_guessing)) :
    (input_guess s).unguessed = s.unguessed ∧
    (input_guess s).found = s.found ∧
    (input_guess s).table = s.table ∧
    (input_guess s).game_over = s.game_over ∧
    (input_guess s).game_won = s.game_won ∧
    (input_guess s).errors =
      s.errors ++ [if (pyUpper s.guessField).length = 5 then
        "Please enter a valid guess." else "Please enter a 5-letter word."] ∧
    (input_guess s).guesses = s.guesses ++ [pyUpper s.guessField] ∧
    (input_guess s).guessField = "" := by
  by_cases h5 : (pyUpper s.guessField).length = 5
  · have hm : ¬ pyUpper s.guessField ∈ s.dict_guessing := fun hmem => h ⟨h5, hmem⟩
    simp [input_guess, h5, hm]
  · simp [input_guess, h5]

/-- Concrete instance discharging the hypothesis of
`input_guess_invalid`: a four-letter input is rejected with an error and
the flags survive, yet the history grows. -/
theorem input_guess_invalid_witness :
    (input_guess (sampleState "abcd")).game_over = (sampleState "abcd").game_over ∧
    (input_guess (sampleState "abcd")).errors =
      (sampleState "abcd").errors ++ ["Please enter a 5-letter word."] := by
  have h := input_guess_invalid (sampleState "abcd") (by decide)
  exact ⟨h.2.2.2.1, by simpa using h.2.2.2.2.2.1⟩

lemma suggLoop_some_bounds {α β : Type} {idxs : List Nat} {tg : List α}
    {te : List β} {l : List (α × β)} (h : suggLoop idxs tg te = some l) :
    ∀ i ∈ idxs, i < tg.length ∧ i < te.length := by
  induction idxs generalizing l with
  | nil => simp
  | cons i rest ih =>
    intro j hj
    cases htg : tg.get? i with
    | none => rw [suggLoop, htg] at h; exact absurd h (by simp)
    | some g =>
      cases hte : te.get? i with
      | none => rw [suggLoop, htg, hte] at h; exact absurd h (by simp)
      | some e =>
        rw [suggLoop, htg, hte] at h
        rcases List.mem_cons.mp hj with rfl | hj'
        · constructor
          · by_contra hlt
            rw [List.get?_eq_none.mpr (by omega)] at htg; exact absurd htg (by simp)
          · by_contra hlt
            rw [List.get?_eq_none.mpr (by omega)] at hte; exact absurd hte (by simp)
        · cases hrest : suggLoop rest tg te with
          | none => rw [hrest] at h; exact absurd h (by simp)
          | some tail => exact ih hrest j hj'

lemma suggLoop_isSome {α β : Type} (idxs : List Nat) (tg : List α) (te : List β)
    (h : ∀ i ∈ idxs, i < tg.length ∧ i < te.length) :
    ∃ l, suggLoop idxs tg te = some l := by
  induction idxs with
  | nil => exact ⟨[], rfl⟩
  | cons i rest ih =>
    obtain ⟨hi1, hi2⟩ := h i (List.mem_cons_self i rest)
    obtain ⟨tail, htail⟩ := ih (fun j hj => h j (List.mem_cons_of_mem i hj))
    cases htg : tg.get? i with
    | none => rw [List.get?_eq_none] at htg; omega
    | some g =>
      cases hte : te.get? i with
      | none => rw [List.get?_eq_none] at hte; omega
      | some e => exact ⟨(g, e) :: tail, by rw [suggLoop, htg, hte, htail]; rfl⟩

lemma length_get_entropies (allowed possible : List String) (weights : List ℝ) :
    (get_entropies allowed possible weights).length = allowed.length := by
  unfold get_entropies; split <;> simp

lemma length_top_ent (ents : List ℝ) :
    (top_ent ents).length = ents.length - (ents.length - 10) := by
  simp [top_ent, lastTen, pysorted, List.length_insertionSort]

lemma length_top_guesses (allowed : List String) (ents : List ℝ) :
    (top_guesses allowed ents).length = ents.length - (ents.length - 10) := by
  simp [top_guesses, top_i, lastTen, np_argsort, List.length_insertionSort]

/-- C10: with more than one possibility the selector unconditionally
reads the top-10 slots, so it fails (`none`, the Python `IndexError`)
whenever fewer than 10 allowed guesses exist, and succeeds whenever at
least 10 exist (given the weights lookup itself succeeds). -/
theorem optimal_guess_needs_ten_allowed (allowed possible : List String)
    (priors : List (String × ℝ)) (h : 1 < possible.length) :
    (allowed.length < 10 → optimal_guess allowed possible priors = none) ∧
    (∀ ws, get_weights possible priors = some ws → 10 ≤ allowed.length →
      (optimal_guess allowed possible priors).isSome = true) := by
  have hne : ¬ possible.length = 1 := by omega
  constructor
  · intro hlt
    cases hw : get_weights possible priors with
    | none => simp only [optimal_guess, if_neg hne, hw]
    | some weights =>
      have hE : (get_entropies allowed possible weights).length = allowed.length :=
        length_get_entropies allowed possible weights
      cases hs : buildSuggestions (top_guesses allowed
          (get_entropies allowed possible weights))
          (top_ent (get_entropies allowed possible weights)) with
      | none => simp only [optimal_guess, if_neg hne, hw, hs]
      | some sugg =>
        have h9 := suggLoop_some_bounds hs 9 (by decide)
        rw [length_top_guesses, hE] at h9
        omega
  · intro ws hw hten
    have hE : (get_entropies allowed possible ws).length = allowed.length :=
      length_get_entropies allowed possible ws
    obtain ⟨l, hl⟩ := suggLoop_isSome (List.range 10)
      (top_guesses allowed (get_entropies allowed possible ws))
      (top_ent (get_entropies allowed possible ws))
      (by
        intro i hi
        rw [List.mem_range] at hi
        rw [length_top_guesses, length_top_ent, hE]
        omega)
    have hl' : buildSuggestions (top_guesses allowed (get_entropies allowed possible ws))
        (top_ent (get_entropies allowed possible ws)) = some l := hl
    simp only [optimal_guess, if_neg hne, hw, hl', Option.isSome_some]

/-- Concrete instance discharging the hypotheses of
`optimal_guess_needs_ten_allowed`: two possibilities and three allowed
guesses make the selection fail before returning. -/
theorem optimal_guess_needs_ten_allowed_witness :
    optimal_guess ["CRANE", "SLATE", "TRACE"] ["CRANE", "TRACE"] [("CRANE", 1), ("TRACE", 1)]
      = none :=
  (optimal_guess_needs_ten_allowed ["CRANE", "SLATE", "TRACE"] ["CRANE", "TRACE"]
    [("CRANE", 1), ("TRACE", 1)] (by decide)).1 (by decide)

lemma dictLookup_append_self {α : Type} (h : String) (v : α)
    (m : List (String × α)) (hm : dictLookup h m = none) :
    dictLookup h (m ++ [(h, v)]) = some v := by
  induction m with
  | nil => simp [dictLookup]
  | cons kv rest ih =>
    rw [dictLookup] at hm
    rw [List.cons_append, dictLookup]
    by_cases hk : kv.1 = h
    · rw [if_pos hk] at hm; exact absurd hm (by simp)
    · rw [if_neg hk] at hm
      rw [if_neg hk]
      exact ih hm

/-- C6: the Guess Selector memoizes by the `(guess, pattern)` history
hash.  For a history not yet cached (and a selection that succeeds), the
first call returns the unmemoized `optimal_guess` answer and stores it;
an immediate second identical call returns the same recommendation with
the session unchanged (a pure cache lookup); and any history already in
the cache is answered from the cache with no recomputation and no state
change. -/
theorem get_next_guess_memoization (s : SolverSession) (gs : List String)
    (ps : List Nat) (poss : List String) (w : String)
    (sg : Option (List (String × ℝ)))
    (hfresh : dictLookup (phash gs ps) s.next_guess_map = none)
    (hok : optimal_guess s.dict_answers poss s.priors = some (w, sg)) :
    get_next_guess s gs ps poss =
      (some w, { s with next_guess_map := s.next_guess_map ++ [(phash gs ps, w)] }) ∧
    get_next_guess ((get_next_guess s gs ps poss).2) gs ps poss =
      get_next_guess s gs ps poss ∧
    (∀ s' : SolverSession, ∀ w' : String,
      dictLookup (phash gs ps) s'.next_guess_map = some w' →
      get_next_guess s' gs ps poss = (some w', s')) := by
  have hcached : ∀ s' : SolverSession, ∀ w' : String,
      dictLookup (phash gs ps) s'.next_guess_map = some w' →
      get_next_guess s' gs ps poss = (some w', s') := by
    intro s' w' hhit
    rw [get_next_guess, hhit]
  have hfirst : get_next_guess s gs ps poss =
      (some w, { s with next_guess_map := s.next_guess_map ++ [(phash gs ps, w)] }) := by
    rw [get_next_guess, hfresh, hok]
  refine ⟨hfirst, ?_, hcached⟩
  rw [hfirst]
  exact hcached _ w (dictLookup_append_self _ w _ hfresh)

/-- Concrete instance discharging the hypotheses of
`get_next_guess_memoization`: an empty cache and a singleton possibility
set (whose selection trivially succeeds). -/
theorem get_next_guess_memoization_witness :
    get_next_guess sampleSession [] [] ["CRANE"] =
      (some "CRANE", { sampleSession with
        next_guess_map := sampleSession.next_guess_map ++ [(phash [] [], "CRANE")] }) := by
  have h := get_next_guess_memoization sampleSession [] [] ["CRANE"] "CRANE" none rfl rfl
  exact h.1

/-- C1: for every pair of equal-length words, each answer letter
occurrence is claimed by at most one non-ABSENT guess position — the
number of guess positions marked EXACT or MISPLACED carrying a letter
`c` never exceeds the number of occurrences of `c` in the answer (so
duplicate guess letters beyond the answer's count are ABSENT) — and the
cited duplicate-letter scenarios compute to their consume-once values
(never naive containment). -/
theorem pattern_claims_each_letter_once :
    (∀ (guess answer : List Nat), guess.length = answer.length → ∀ c : Nat,
      ((List.range guess.length).filter (fun i =>
        decide ((full_pattern guess answer).getD i 0 ≠ 0) &&
        (guess.getD i 0 == c))).length ≤ answer.count c) ∧
    pattern_of "SPEED" "ERASE" = 37 ∧
    pattern_of "ALLOW" "LLAMA" = 16 ∧
    pattern_of "EEESS" "ERASE" = 59 := by
  refine ⟨?_, by decide, by decide, by decide⟩
  intro guess answer hlen c
  obtain ⟨f, inv⟩ := finalState_inv guess answer
  have hfp : full_pattern guess answer = (finalState guess answer).pat := rfl
  set L := (List.range guess.length).filter (fun i =>
    decide ((full_pattern guess answer).getD i 0 ≠ 0) && (guess.getD i 0 == c)) with hL
  have hmem : ∀ i ∈ L, (finalState guess answer).pat.getD i 0 ≠ 0 ∧
      guess.getD i 0 = c := by
    intro i hi
    rw [hL, List.mem_filter] at hi
    have h2 := hi.2
    simp only [Bool.and_eq_true, decide_eq_true_eq, beq_iff_eq, hfp] at h2
    exact h2
  have hnodupL : L.Nodup := (List.nodup_range guess.length).filter _
  have hmapnodup : (L.map f).Nodup := by
    refine List.Nodup.map_on ?_ hnodupL
    intro x hx y hy hxy
    by_contra hne
    exact inv.claim_inj x y (hmem x hx).1 (hmem y hy).1 hne hxy
  have hsubset : (L.map f) ⊆
      (List.range answer.length).filter (fun j => answer.getD j 0 == c) := by
    intro y hy
    rw [List.mem_map] at hy
    obtain ⟨x, hx, rfl⟩ := hy
    rw [List.mem_filter]
    constructor
    · rw [List.mem_range]
      have := inv.claim_lt x (hmem x hx).1
      omega
    · rw [beq_iff_eq, inv.claim_eq x (hmem x hx).1]
      exact (hmem x hx).2
  have hle := List.Subperm.length_le (List.subperm_of_subset hmapnodup hsubset)
  rw [List.length_map] at hle
  exact hle.trans (le_of_eq (count_indices answer c))

/-- Concrete instance discharging the hypothesis of
`pattern_claims_each_letter_once`: guess EEESS against answer ERASE at
the letter E (code 69). -/
theorem pattern_claims_each_letter_once_witness :
    (wordToNats "EEESS").length = (wordToNats "ERASE").length ∧
    ((List.range (wordToNats "EEESS").length).filter (fun i =>
      decide ((full_pattern (wordToNats "EEESS") (wordToNats "ERASE")).getD i 0 ≠ 0) &&
      ((wordToNats "EEESS").getD i 0 == 69))).length ≤ (wordToNats "ERASE").count 69 :=
  ⟨by decide, pattern_claims_each_letter_once.1 (wordToNats "EEESS")
    (wordToNats "ERASE") (by decide) 69⟩

lemma greenFold_self (w : List Nat) : ∀ (ks proc : List Nat) (st : PEState),
    (∀ a b, a < w.length → b < w.length →
      (st.grid a b = true ↔ (w.getD a 0 = w.getD b 0 ∧ a ∉ proc ∧ b ∉ proc))) →
    (∀ m, st.pat.getD m 0 = if m ∈ proc ∧ m < w.length then 2 else 0) →
    st.pat.length = w.length →
    (∀ k ∈ ks, k < w.length) →
    (∀ a b, a < w.length → b < w.length →
      ((ks.foldl (greenStep w.length) st).grid a b = true ↔
        (w.getD a 0 = w.getD b 0 ∧ (a ∉ ks ∧ a ∉ proc) ∧ (b ∉ ks ∧ b ∉ proc)))) ∧
    (∀ m, (ks.foldl (greenStep w.length) st).pat.getD m 0 =
      if (m ∈ ks ∨ m ∈ proc) ∧ m < w.length then 2 else 0) ∧
    (ks.foldl (greenStep w.length) st).pat.length = w.length := by
  intro ks
  induction ks with
  | nil =>
    intro proc st hgrid hpat hlen hks
    refine ⟨?_, ?_, hlen⟩
    · intro a b ha hb
      rw [List.foldl_nil, hgrid a b ha hb]
      simp
    · intro m
      rw [List.foldl_nil, hpat m]
      simp
  | cons k rest ih =>
    intro proc st hgrid hpat hlen hks
    have hk : k < w.length := hks k (List.mem_cons_self k rest)
    by_cases hkp : k ∈ proc
    · have hdiag : st.grid k k = false := by
        cases hx : st.grid k k
        · rfl
        · exact absurd hkp ((hgrid k k hk hk).mp hx).2.1
      have hstep : greenStep w.length st k = st := by
        rw [greenStep, hdiag]
        simp
      rw [List.foldl_cons, hstep]
      obtain ⟨h1, h2, h3⟩ := ih proc st hgrid hpat hlen
        (fun k' hk' => hks k' (List.mem_cons_of_mem k hk'))
      refine ⟨?_, ?_, h3⟩
      · intro a b ha hb
        rw [h1 a b ha hb]
        simp only [List.mem_cons, not_or]
        constructor
        · rintro ⟨he, ⟨har, hap⟩, hbr, hbp⟩
          exact ⟨he, ⟨⟨fun hak => hap (hak.symm ▸ hkp), har⟩, hap⟩,
            ⟨fun hbk => hbp (hbk.symm ▸ hkp), hbr⟩, hbp⟩
        · rintro ⟨he, ⟨⟨hak, har⟩, hap⟩, ⟨hbk, hbr⟩, hbp⟩
          exact ⟨he, ⟨har, hap⟩, hbr, hbp⟩
      · intro m
        rw [h2 m]
        refine if_congr ?_ rfl rfl
        simp only [List.mem_cons]
        constructor
        · rintro ⟨hm | hm, hlt⟩
          · exact ⟨Or.inl (Or.inr hm), hlt⟩
          · exact ⟨Or.inr hm, hlt⟩
        · rintro ⟨(hm | hm) | hm, hlt⟩
          · exact ⟨Or.inr (hm.symm ▸ hkp), hlt⟩
          · exact ⟨Or.inl hm, hlt⟩
          · exact ⟨Or.inr hm, hlt⟩
    · have hdiag : st.grid k k = true := (hgrid k k hk hk).mpr ⟨rfl, hkp, hkp⟩
      have hstep : greenStep w.length st k =
          { pat := st.pat.set k EXACT, grid := killRC w.length k k st.grid } := by
        rw [greenStep, hdiag]
        simp
      rw [List.foldl_cons, hstep]
      have hgrid' : ∀ a b, a < w.length → b < w.length →
          ((killRC w.length k k st.grid) a b = true ↔
            (w.getD a 0 = w.getD b 0 ∧ a ∉ (k :: proc) ∧ b ∉ (k :: proc))) := by
        intro a b ha hb
        rw [killRC_eval]
        by_cases hc : (a = k ∧ b < w.length) ∨ (b = k ∧ a < w.length)
        · rw [if_pos hc]
          simp only [Bool.false_eq_true, false_iff]
          rintro ⟨he, ha', hb'⟩
          rcases hc with ⟨rfl, -⟩ | ⟨rfl, -⟩
          · exact ha' (List.mem_cons_self a proc)
          · exact hb' (List.mem_cons_self b proc)
        · rw [if_neg hc, hgrid a b ha hb]
          have hak : ¬ a = k := fun h => hc (Or.inl ⟨h, hb⟩)
          have hbk : ¬ b = k := fun h => hc (Or.inr ⟨h, ha⟩)
          simp [List.mem_cons, hak, hbk]
      have hpat' : ∀ m, (st.pat.set k EXACT).getD m 0 =
          if m ∈ (k :: proc) ∧ m < w.length then 2 else 0 := by
        intro m
        rw [getD_set_lt st.pat k EXACT m (hlen ▸ hk)]
        by_cases hmk : m = k
        · rw [if_pos hmk, if_pos ⟨by rw [hmk]; exact List.mem_cons_self k proc,
            by rw [hmk]; exact hk⟩]
          rfl
        · rw [if_neg hmk, hpat m]
          refine if_congr ?_ rfl rfl
          simp [List.mem_cons, hmk]
      obtain ⟨h1, h2, h3⟩ := ih (k :: proc)
        { pat := st.pat.set k EXACT, grid := killRC w.length k k st.grid }
        hgrid' hpat' (by rw [List.length_set]; exact hlen)
        (fun k' hk' => hks k' (List.mem_cons_of_mem k hk'))
      refine ⟨?_, ?_, h3⟩
      · intro a b ha hb
        rw [h1 a b ha hb]
        simp only [List.mem_cons, not_or]
        tauto
      · intro m
        rw [h2 m]
        refine if_congr ?_ rfl rfl
        simp only [List.mem_cons]
        tauto

lemma greenPass_self (w : List Nat) :
    (∀ a b, a < w.length → b < w.length →
      (greenPass w.length (initState w w)).grid a b = false) ∧
    (∀ m, (greenPass w.length (initState w w)).pat.getD m 0 =
      if m < w.length then 2 else 0) ∧
    (greenPass w.length (initState w w)).pat.length = w.length := by
  obtain ⟨h1, h2, h3⟩ := greenFold_self w (List.range w.length) [] (initState w w)
    (by intro a b ha hb; simp [initState])
    (by intro m; simp [initState, getD_replicate_zero])
    (by simp [initState])
    (fun k hk => List.mem_range.mp hk)
  rw [greenPass]
  refine ⟨?_, ?_, h3⟩
  · intro a b ha hb
    cases hx : ((List.range w.length).foldl (greenStep w.length) (initState w w)).grid a b
    · rfl
    · exact absurd (List.mem_range.mpr ha) ((h1 a b ha hb).mp hx).2.1.1
  · intro m
    rw [h2 m]
    refine if_congr ?_ rfl rfl
    simp [List.mem_range]

lemma yellowFold_noop (nl : Nat) (st : PEState)
    (hdead : ∀ a b, a < nl → b < nl → st.grid a b = false) :
    ∀ ps : List (Nat × Nat), (∀ p ∈ ps, p.1 < nl ∧ p.2 < nl) →
      ps.foldl (yellowStep nl) st = st := by
  intro ps
  induction ps with
  | nil => intro _; rfl
  | cons p rest ih =>
    intro hp
    rw [List.foldl_cons]
    have hstep : yellowStep nl st p = st := by
      rw [yellowStep, hdead p.1 p.2 (hp p (List.mem_cons_self p rest)).1
        (hp p (List.mem_cons_self p rest)).2]
      simp
    rw [hstep]
    exact ih (fun q hq => hp q (List.mem_cons_of_mem p hq))

lemma full_pattern_self (w : List Nat) :
    (∀ m, (full_pattern w w).getD m 0 = if m < w.length then 2 else 0) ∧
    (full_pattern w w).length = w.length := by
  obtain ⟨hg, hp, hl⟩ := greenPass_self w
  have hyp : yellowPass w.length (greenPass w.length (initState w w)) =
      greenPass w.length (initState w w) := by
    rw [yellowPass]
    exact yellowFold_noop w.length _ hg (rcPairs w.length) (fun p hp' => mem_rcPairs hp')
  rw [full_pattern, hyp]
  exact ⟨hp, hl⟩

lemma list_eq_five_twos (pat : List Nat) (hlen : pat.length = 5)
    (h : ∀ m, pat.getD m 0 = if m < 5 then 2 else 0) : pat = [2, 2, 2, 2, 2] := by
  match pat, hlen with
  | [a, b, c, d, e], _ =>
    have h0 := h 0
    have h1 := h 1
    have h2 := h 2
    have h3 := h 3
    have h4 := h 4
    simp only [List.getD_cons_zero, List.getD_cons_succ] at h0 h1 h2 h3 h4
    norm_num at h0 h1 h2 h3 h4
    simp [h0, h1, h2, h3, h4]

lemma patternValue_five (pat : List Nat) (hlen : pat.length = 5)
    (hle : ∀ x ∈ pat, x ≤ 2) :
    patternValue pat = patternValueNoMod pat ∧ patternValueNoMod pat ≤ 242 := by
  match pat, hlen with
  | [a, b, c, d, e], _ =>
    have ha : a ≤ 2 := hle a (by simp)
    have hb : b ≤ 2 := hle b (by simp)
    have hc : c ≤ 2 := hle c (by simp)
    have hd : d ≤ 2 := hle d (by simp)
    have he : e ≤ 2 := hle e (by simp)
    have hlc : ([a, b, c, d, e] : List Nat).length = 5 := rfl
    have h5 : List.range 5 = [0, 1, 2, 3, 4] := by decide
    constructor
    · simp only [patternValue, patternValueNoMod, hlc, h5, List.map_cons, List.map_nil,
        List.foldl_cons, List.foldl_nil, List.sum_cons, List.sum_nil,
        List.getD_cons_zero, List.getD_cons_succ]
      norm_num
      omega
    · simp only [patternValueNoMod, hlc, h5, List.map_cons, List.map_nil,
        List.sum_cons, List.sum_nil, List.getD_cons_zero, List.getD_cons_succ]
      norm_num
      omega

lemma wordToNats_length (s : String) : (wordToNats s).length = s.length := by
  rw [wordToNats, List.length_map]
  rfl

lemma pattern_of_five (guess answer : String) (hg : guess.length = 5)
    (ha : answer.length = 5) :
    pattern_of guess answer =
      patternValueNoMod (full_pattern (wordToNats guess) (wordToNats answer)) ∧
    pattern_of guess answer ≤ 242 := by
  obtain ⟨f, inv⟩ := finalState_inv (wordToNats guess) (wordToNats answer)
  have hfp : full_pattern (wordToNats guess) (wordToNats answer) =
      (finalState (wordToNats guess) (wordToNats answer)).pat := rfl
  have hplen : (full_pattern (wordToNats guess) (wordToNats answer)).length = 5 := by
    rw [hfp, inv.pat_len, wordToNats_length, hg]
  have hple : ∀ x ∈ full_pattern (wordToNats guess) (wordToNats answer), x ≤ 2 := by
    rw [hfp]
    exact inv.pat_le
  obtain ⟨heq, hle⟩ := patternValue_five _ hplen hple
  exact ⟨heq, le_of_eq_of_le heq hle⟩

/-- C7: for five-letter words the uint8 base-3 dot product never wraps
modulo 256 — the computed pattern equals the exact mathematical encoding
and lies in `[0, 242]` — and a word guessed against itself encodes the
all-EXACT vector `Σ 2·3^i = 242`. -/
theorem pattern_fits_uint8 :
    (∀ guess answer : String, guess.length = 5 → answer.length = 5 →
      pattern_of guess answer =
        patternValueNoMod (full_pattern (wordToNats guess) (wordToNats answer)) ∧
      pattern_of guess answer ≤ 242) ∧
    (∀ A : String, A.length = 5 → pattern_of A A = 242) := by
  have hlenw : ∀ s : String, (wordToNats s).length = s.length := wordToNats_length
  constructor
  · exact fun guess answer hg ha => pattern_of_five guess answer hg ha
  · intro A hA
    obtain ⟨hd, hl⟩ := full_pattern_self (wordToNats A)
    have hwlen : (wordToNats A).length = 5 := by rw [hlenw, hA]
    rw [hwlen] at hd
    have hlen5 : (full_pattern (wordToNats A) (wordToNats A)).length = 5 := by
      rw [hl, hwlen]
    have hlist := list_eq_five_twos _ hlen5 hd
    have hval : pattern_of A A =
        patternValue (full_pattern (wordToNats A) (wordToNats A)) := rfl
    rw [hval, hlist]
    decide

/-- Concrete instance discharging the hypotheses of
`pattern_fits_uint8`. -/
theorem pattern_fits_uint8_witness :
    pattern_of "SPEED" "ERASE" ≤ 242 ∧ pattern_of "CRANE" "CRANE" = 242 :=
  ⟨(pattern_fits_uint8.1 "SPEED" "ERASE" (by decide) (by decide)).2,
    pattern_fits_uint8.2 "CRANE" (by decide)⟩

lemma dictLookup_eq_none {α : Type} (w : String) (d : List (String × α))
    (hw : w ∉ d.map Prod.fst) : dictLookup w d = none := by
  induction d with
  | nil => rfl
  | cons kv rest ih =>
    rw [List.map_cons, List.mem_cons, not_or] at hw
    rw [dictLookup, if_neg (fun h => hw.1 h.symm)]
    exact ih hw.2

lemma mapM_option_eq_none {α β : Type} (f : α → Option β) (l : List α) (x : α)
    (hx : x ∈ l) (hf : f x = none) : l.mapM f = none := by
  induction l with
  | nil => cases hx
  | cons a t ih =>
    rw [List.mapM_cons]
    rcases List.mem_cons.mp hx with rfl | hx'
    · rw [hf]; rfl
    · cases hfa : f a
      · rfl
      · rw [ih hx']; rfl

lemma length_linspace (a b : ℝ) (n : Nat) : (linspace a b n).length = n := by
  rw [linspace, List.length_map, List.length_range]

lemma length_np_argsort (xs : List ℝ) : (np_argsort xs).length = xs.length := by
  rw [np_argsort, List.length_insertionSort, List.length_range]

lemma zip_sigmoid_keys (sw : List String) (xs : List ℝ) (h : sw.length ≤ xs.length) :
    ((sw.zip xs).map (fun wx => (wx.1, sigmoid wx.2))).map Prod.fst = sw := by
  rw [List.map_map]
  rw [show (Prod.fst ∘ fun wx : String × ℝ => (wx.1, sigmoid wx.2)) =
    (fun wx : String × ℝ => wx.1) from rfl]
  exact List.map_fst_zip sw xs h

lemma sorted_words_mem (freq_map : List (String × ℝ)) (w : String) :
    (w ∈ (np_argsort (freq_map.map Prod.snd)).map
      (fun i => (freq_map.map Prod.fst).getD i "") ↔ w ∈ freq_map.map Prod.fst) := by
  have hperm : List.Perm (np_argsort (freq_map.map Prod.snd))
      (List.range (freq_map.map Prod.fst).length) := by
    rw [np_argsort, List.length_map, List.length_map]
    exact List.perm_insertionSort _ _
  have hperm2 := hperm.map (fun i => (freq_map.map Prod.fst).getD i "")
  rw [hperm2.mem_iff, map_range_getD]

lemma priors_keys_mem (freq_map : List (String × ℝ)) (n_common : Nat)
    (width : ℝ) (w : String) :
    (w ∈ (get_frequency_based_priors freq_map n_common width).map Prod.fst ↔
      w ∈ freq_map.map Prod.fst) := by
  simp only [get_frequency_based_priors]
  rw [zip_sigmoid_keys _ _ (by
    rw [List.length_map, length_np_argsort, List.length_map, length_linspace,
      List.length_map])]
  exact sorted_words_mem freq_map w

/-- C8 counterexample: for a word absent from the frequency table,
looking up its weight is an error — `get_weights` hits a `KeyError`
(modelled `none`) on the priors dict instead of treating the word as a
zero-weight entry. -/
theorem priors_missing_word_counterexample :
    get_weights ["SLATE"] (get_frequency_based_priors [("CRANE", (1 : ℝ))] 3000 10)
      = none := by
  have hkeys : ("SLATE" : String) ∉
      (get_frequency_based_priors [("CRANE", (1 : ℝ))] 3000 10).map Prod.fst := by
    rw [priors_keys_mem]
    simp
  have hlook := dictLookup_eq_none _ _ hkeys
  rw [get_weights, mapM_option_eq_none _ _ "SLATE" (List.mem_singleton.mpr rfl) hlook]
  rfl

/-- C8 (amended): a word absent from the frequency table is absent from
the priors mapping, so looking up its weight IS an error: `get_weights`
on any word list containing it raises `KeyError` (modelled `none`)
rather than defaulting the missing entry to zero weight. -/
theorem priors_missing_word_is_error (freq_map : List (String × ℝ))
    (n_common : Nat) (width : ℝ) (w : String)
    (hw : w ∉ freq_map.map Prod.fst) (ws : List String) (hmem : w ∈ ws) :
    dictLookup w (get_frequency_based_priors freq_map n_common width) = none ∧
    get_weights ws (get_frequency_based_priors freq_map n_common width) = none := by
  have hkeys : w ∉ (get_frequency_based_priors freq_map n_common width).map Prod.fst := by
    rw [priors_keys_mem]
    exact hw
  have hlook := dictLookup_eq_none _ _ hkeys
  refine ⟨hlook, ?_⟩
  rw [get_weights, mapM_option_eq_none _ _ w hmem hlook]
  rfl

/-- Concrete instance discharging the hypotheses of
`priors_missing_word_is_error`. -/
theorem priors_missing_word_is_error_witness :
    dictLookup "AUDIO" (get_frequency_based_priors [("CRANE", (2 : ℝ))] 3000 10) = none ∧
    get_weights ["AUDIO"] (get_frequency_based_priors [("CRANE", (2 : ℝ))] 3000 10) = none :=
  priors_missing_word_is_error [("CRANE", (2 : ℝ))] 3000 10 "AUDIO" (by simp)
    ["AUDIO"] (by simp)

lemma getD_map_lt {α β : Type} (f : α → β) (l : List α) (i : Nat) (h : i < l.length)
    (d : α) (d' : β) : (l.map f).getD i d' = f (l.getD i d) := by
  rw [List.getD_eq_getElem?_getD, List.getD_eq_getElem?_getD, List.getElem?_map,
    List.getElem?_eq_getElem h]
  rfl

lemma getD_mem_of_lt {α : Type} (l : List α) (j : Nat) (d : α) (h : j < l.length) :
    l.getD j d ∈ l := by
  rw [List.getD_eq_getElem?_getD, List.getElem?_eq_getElem h]
  exact List.getElem_mem h

lemma list_sum_zero_of_nonneg {l : List ℝ} (h : ∀ x ∈ l, 0 ≤ x) (hs : l.sum = 0) :
    ∀ x ∈ l, x = 0 := by
  induction l with
  | nil => simp
  | cons a t ih =>
    rw [List.sum_cons] at hs
    have ha : 0 ≤ a := h a (List.mem_cons_self a t)
    have ht : 0 ≤ t.sum := List.sum_nonneg (fun x hx => h x (List.mem_cons_of_mem a hx))
    have ha0 : a = 0 := by linarith
    have hts : t.sum = 0 := by linarith
    intro x hx
    rcases List.mem_cons.mp hx with rfl | hx'
    · exact ha0
    · exact ih (fun y hy => h y (List.mem_cons_of_mem a hy)) hts x hx'

lemma sum_getD_range (l : List ℝ) : (∑ j ∈ Finset.range l.length, l.getD j 0) = l.sum := by
  induction l with
  | nil => simp
  | cons a t ih =>
    rw [List.length_cons, Finset.sum_range_succ']
    simp only [List.getD_cons_succ, List.getD_cons_zero]
    rw [ih, List.sum_cons]
    ring

lemma dist_nonneg_at (g : String) (pw : List String) (w : List ℝ)
    (hw : ∀ x ∈ w, 0 ≤ x) (hlen : w.length = pw.length) (p : Nat) :
    0 ≤ get_pattern_distribution g pw w p := by
  rw [get_pattern_distribution]
  apply Finset.sum_nonneg
  intro j hj
  split
  · exact hw _ (getD_mem_of_lt w j 0 (by rw [hlen]; exact Finset.mem_range.mp hj))
  · exact le_refl 0

lemma dist_ge_single (g : String) (pw : List String) (w : List ℝ)
    (hw : ∀ x ∈ w, 0 ≤ x) (hlen : w.length = pw.length) (j : Nat)
    (hj : j < pw.length) :
    w.getD j 0 ≤ get_pattern_distribution g pw w (pattern_of g (pw.getD j "")) := by
  rw [get_pattern_distribution]
  have := Finset.single_le_sum (f := fun j' =>
    if pattern_of g (pw.getD j' "") = pattern_of g (pw.getD j "") then w.getD j' 0 else 0)
    (fun j' hj' => by
      dsimp only
      split
      · exact hw _ (getD_mem_of_lt w j' 0 (by rw [hlen]; exact Finset.mem_range.mp hj'))
      · exact le_refl 0)
    (Finset.mem_range.mpr hj)
  simpa using this

lemma distTotal_eq_sum (g : String) (pw : List String) (w : List ℝ)
    (hlen : w.length = pw.length) (hg : g.length = 5)
    (h5 : ∀ x ∈ pw, x.length = 5) :
    distTotal (get_pattern_distribution g pw w) = w.sum := by
  rw [distTotal]
  simp only [get_pattern_distribution]
  rw [Finset.sum_comm]
  rw [Finset.sum_congr rfl (fun j hj => Finset.sum_ite_eq (Finset.range 243)
    (pattern_of g (pw.getD j "")) (fun _ => w.getD j 0))]
  rw [Finset.sum_congr rfl (fun j hj => if_pos (Finset.mem_range.mpr (by
    have hple : pattern_of g (pw.getD j "") ≤ 242 :=
      (pattern_of_five g (pw.getD j "") hg
        (h5 _ (getD_mem_of_lt pw j "" (Finset.mem_range.mp hj)))).2
    omega)))]
  rw [← hlen, sum_getD_range]

lemma entropy_term_nonpos (d : Nat → ℝ) (hd : ∀ p, 0 ≤ d p) (p : Nat)
    (hp : p ∈ Finset.range 243) :
    d p / distTotal d * Real.logb 2 (d p / distTotal d) ≤ 0 := by
  have hS : 0 ≤ distTotal d := Finset.sum_nonneg (fun q _ => hd q)
  rcases eq_or_lt_of_le hS with hS0 | hSpos
  · rw [← hS0, div_zero, zero_mul]
  · have hq0 : 0 ≤ d p / distTotal d := div_nonneg (hd p) (le_of_lt hSpos)
    have hq1 : d p / distTotal d ≤ 1 := by
      rw [div_le_one hSpos, distTotal]
      exact Finset.single_le_sum (fun q _ => hd q) hp
    exact mul_nonpos_iff.mpr (Or.inl ⟨hq0, Real.logb_nonpos one_lt_two hq0 hq1⟩)

lemma entropy_nonneg_of (d : Nat → ℝ) (hd : ∀ p, 0 ≤ d p) :
    0 ≤ entropy_of_distribution d := by
  rw [entropy_of_distribution, neg_nonneg]
  exact Finset.sum_nonpos (entropy_term_nonpos d hd)

lemma entropy_zero_iff_of (d : Nat → ℝ) (hd : ∀ p, 0 ≤ d p) :
    (entropy_of_distribution d = 0 ↔ ∀ p ∈ Finset.range 243,
      d p / distTotal d = 0 ∨ d p / distTotal d = 1) := by
  rw [entropy_of_distribution, neg_eq_zero]
  rw [Finset.sum_eq_zero_iff_of_nonpos (entropy_term_nonpos d hd)]
  constructor
  · intro h p hp
    have hterm := h p hp
    rcases mul_eq_zero.mp hterm with hq | hlog
    · exact Or.inl hq
    · rcases Real.logb_eq_zero.mp hlog with h2 | h2 | h2 | h2 | h2 | h2
      · norm_num at h2
      · norm_num at h2
      · norm_num at h2
      · exact Or.inl h2
      · exact Or.inr h2
      · have hS : 0 ≤ distTotal d := Finset.sum_nonneg (fun q _ => hd q)
        have : 0 ≤ d p / distTotal d := div_nonneg (hd p) hS
        linarith
  · intro h p hp
    rcases h p hp with hq | hq
    · rw [hq, zero_mul]
    · rw [hq, Real.logb_one, mul_zero]

/-- C4: for every guess, possibility list and (nonnegative, matching)
weight vector over five-letter words, the computed entropy is a
nonnegative number of bits; it is zero exactly when all nonzero-weight
possibilities induce one identical pattern for that guess; and a total
weight of zero yields entropy 0 (for every allowed guess) rather than an
error. -/
theorem get_entropies_nonneg_zero_iff (allowed_words possible_words : List String)
    (weights : List ℝ) (hw : ∀ x ∈ weights, 0 ≤ x)
    (hlen : weights.length = possible_words.length)
    (h5 : ∀ x ∈ possible_words, x.length = 5)
    (hg5 : ∀ g ∈ allowed_words, g.length = 5)
    (i : Nat) (hi : i < allowed_words.length) :
    0 ≤ (get_entropies allowed_words possible_words weights).getD i 0 ∧
    ((get_entropies allowed_words possible_words weights).getD i 0 = 0 ↔
      ∀ j j', j < possible_words.length → j' < possible_words.length →
        weights.getD j 0 ≠ 0 → weights.getD j' 0 ≠ 0 →
        pattern_of (allowed_words.getD i "") (possible_words.getD j "") =
          pattern_of (allowed_words.getD i "") (possible_words.getD j' "")) ∧
    (weights.sum = 0 →
      (get_entropies allowed_words possible_words weights).getD i 0 = 0) := by
  by_cases hsum : weights.sum = 0
  · rw [get_entropies, if_pos hsum]
    have hzero : (List.replicate allowed_words.length (0 : ℝ)).getD i 0 = 0 := by
      rcases Nat.lt_or_ge i allowed_words.length with h | h
      · simp [List.getD_eq_getElem?_getD, List.getElem?_replicate, h]
      · simp [List.getD_eq_getElem?_getD, List.getElem?_replicate, Nat.not_lt.mpr h]
    rw [hzero]
    refine ⟨le_refl 0, ?_, fun _ => rfl⟩
    constructor
    · intro _ j j' hj hj' hwj hwj'
      exact absurd (list_sum_zero_of_nonneg hw hsum _
        (getD_mem_of_lt weights j 0 (by omega))) hwj
    · intro _
      rfl
  · have hg : (allowed_words.getD i "").length = 5 :=
      hg5 _ (getD_mem_of_lt allowed_words i "" hi)
    have hS0 : 0 ≤ weights.sum := List.sum_nonneg hw
    have hSpos : 0 < weights.sum := lt_of_le_of_ne hS0 (Ne.symm hsum)
    set g := allowed_words.getD i "" with hgdef
    set d := get_pattern_distribution g possible_words weights with hddef
    have hdnn : ∀ p, 0 ≤ d p := dist_nonneg_at g possible_words weights hw hlen
    have hdS : distTotal d = weights.sum :=
      distTotal_eq_sum g possible_words weights hlen hg h5
    have hgete : (get_entropies allowed_words possible_words weights).getD i 0 =
        entropy_of_distribution d := by
      rw [get_entropies, if_neg hsum]
      exact getD_map_lt _ allowed_words i hi "" 0
    rw [hgete]
    refine ⟨entropy_nonneg_of d hdnn, ?_, fun habs => absurd habs hsum⟩
    rw [entropy_zero_iff_of d hdnn]
    have hbound : ∀ j, j < possible_words.length →
        pattern_of g (possible_words.getD j "") ≤ 242 := fun j hj =>
      (pattern_of_five g (possible_words.getD j "") hg
        (h5 _ (getD_mem_of_lt possible_words j "" hj))).2
    constructor
    · -- every bucket is all-or-nothing ⇒ nonzero-weight patterns agree
      intro hq j j' hj hj' hwj hwj'
      have hwjpos : 0 < weights.getD j 0 :=
        lt_of_le_of_ne (hw _ (getD_mem_of_lt weights j 0 (by omega))) (Ne.symm hwj)
      have hwj'pos : 0 < weights.getD j' 0 :=
        lt_of_le_of_ne (hw _ (getD_mem_of_lt weights j' 0 (by omega))) (Ne.symm hwj')
      have hdp : 0 < d (pattern_of g (possible_words.getD j "")) :=
        lt_of_lt_of_le hwjpos (dist_ge_single g possible_words weights hw hlen j hj)
      have hdp' : 0 < d (pattern_of g (possible_words.getD j' "")) :=
        lt_of_lt_of_le hwj'pos (dist_ge_single g possible_words weights hw hlen j' hj')
      have hmemp : pattern_of g (possible_words.getD j "") ∈ Finset.range 243 :=
        Finset.mem_range.mpr (by have := hbound j hj; omega)
      have hmemp' : pattern_of g (possible_words.getD j' "") ∈ Finset.range 243 :=
        Finset.mem_range.mpr (by have := hbound j' hj'; omega)
      have hq1 : d (pattern_of g (possible_words.getD j "")) = weights.sum := by
        rcases hq _ hmemp with h0 | h1
        · exfalso
          rw [div_eq_zero_iff] at h0
          rcases h0 with h0 | h0
          · linarith
          · rw [hdS] at h0; linarith
        · rw [hdS] at h1
          exact (div_eq_one_iff_eq hsum).mp h1
      have hq1' : d (pattern_of g (possible_words.getD j' "")) = weights.sum := by
        rcases hq _ hmemp' with h0 | h1
        · exfalso
          rw [div_eq_zero_iff] at h0
          rcases h0 with h0 | h0
          · linarith
          · rw [hdS] at h0; linarith
        · rw [hdS] at h1
          exact (div_eq_one_iff_eq hsum).mp h1
      by_contra hne
      have hmem_er : pattern_of g (possible_words.getD j' "") ∈
          (Finset.range 243).erase (pattern_of g (possible_words.getD j "")) :=
        Finset.mem_erase.mpr ⟨fun h => hne h.symm, hmemp'⟩
      have hother : d (pattern_of g (possible_words.getD j' "")) ≤
          ∑ p ∈ (Finset.range 243).erase (pattern_of g (possible_words.getD j "")), d p :=
        Finset.single_le_sum (fun q _ => hdnn q) hmem_er
      have hsplit := Finset.add_sum_erase (Finset.range 243) d hmemp
      have hT : (∑ x ∈ Finset.range 243, d x) = weights.sum := by
        rw [← hdS]; rfl
      rw [hT, hq1] at hsplit
      rw [hq1'] at hother
      linarith
    · -- all nonzero-weight patterns agree ⇒ every bucket is 0 or S
      intro hpat p hp
      by_cases hex : ∃ j, j < possible_words.length ∧ weights.getD j 0 ≠ 0 ∧
          pattern_of g (possible_words.getD j "") = p
      · right
        obtain ⟨j0, hj0, hwj0, hpj0⟩ := hex
        have hdp : d p = weights.sum := by
          rw [hddef, get_pattern_distribution, ← hlen, ← sum_getD_range weights]
          refine Finset.sum_congr (by rw [hlen]) ?_
          intro j hj
          rw [hlen] at hj
          by_cases hwj : weights.getD j 0 = 0
          · rw [hwj]
            split <;> rfl
          · rw [if_pos (by
              rw [hpat j j0 (Finset.mem_range.mp hj) hj0 hwj hwj0]
              exact hpj0)]
        rw [hdp, hdS, div_self hsum]
      · left
        have hdp : d p = 0 := by
          rw [hddef, get_pattern_distribution]
          refine Finset.sum_eq_zero ?_
          intro j hj
          split
          · by_contra hwj
            exact hex ⟨j, Finset.mem_range.mp hj, fun h => hwj (by rw [h]),
              by assumption⟩
          · rfl
        rw [hdp, zero_div]

/-- Concrete instance discharging the hypotheses of
`get_entropies_nonneg_zero_iff`. -/
theorem get_entropies_nonneg_zero_iff_witness :
    0 ≤ (get_entropies ["CRANE"] ["CRANE", "TRACE"] [(1 : ℝ) / 2, 1 / 2]).getD 0 0 ∧
    (((1 : ℝ) / 2 + (1 / 2 + 0) = 0) → False) := by
  constructor
  · exact (get_entropies_nonneg_zero_iff ["CRANE"] ["CRANE", "TRACE"]
      [(1 : ℝ) / 2, 1 / 2] (by
        intro x hx
        rcases List.mem_cons.mp hx with rfl | hx'
        · norm_num
        · rcases List.mem_cons.mp hx' with rfl | hx''
          · norm_num
          · cases hx'')
      (by decide) (by
        intro x hx
        rcases List.mem_cons.mp hx with rfl | hx'
        · decide
        · rcases List.mem_cons.mp hx' with rfl | hx''
          · decide
          · cases hx'')
      (by
        intro x hx
        rcases List.mem_cons.mp hx with rfl | hx'
        · decide
        · cases hx')
      0 (by decide)).1
  · intro h
    norm_num at h

lemma argmax_fold_spec (xs : List ℝ) : ∀ (ks : List Nat) (b : Nat),
    (ks.foldl (fun best i => if xs.getD best 0 < xs.getD i 0 then i else best) b = b ∨
      ks.foldl (fun best i => if xs.getD best 0 < xs.getD i 0 then i else best) b ∈ ks) ∧
    xs.getD b 0 ≤
      xs.getD (ks.foldl (fun best i => if xs.getD best 0 < xs.getD i 0 then i else best) b) 0 ∧
    (∀ k ∈ ks, xs.getD k 0 ≤
      xs.getD (ks.foldl (fun best i => if xs.getD best 0 < xs.getD i 0 then i else best) b) 0) := by
  intro ks
  induction ks with
  | nil => intro b; exact ⟨Or.inl rfl, le_refl _, by simp⟩
  | cons k rest ih =>
    intro b
    rw [List.foldl_cons]
    set b' := if xs.getD b 0 < xs.getD k 0 then k else b with hb'
    obtain ⟨hres, hle, hall⟩ := ih b'
    have hbb' : xs.getD b 0 ≤ xs.getD b' 0 := by
      rw [hb']
      split
      · exact le_of_lt (by assumption)
      · exact le_refl _
    have hkb' : xs.getD k 0 ≤ xs.getD b' 0 := by
      rw [hb']
      split
      · exact le_refl _
      · exact le_of_not_lt (by assumption)
    refine ⟨?_, le_trans hbb' hle, ?_⟩
    · rcases hres with h | h
      · rw [h, hb']
        split
        · exact Or.inr (List.mem_cons_self _ _)
        · exact Or.inl rfl
      · exact Or.inr (List.mem_cons_of_mem _ h)
    · intro k' hk'
      rcases List.mem_cons.mp hk' with rfl | hk''
      · exact le_trans hkb' hle
      · exact hall k' hk''

lemma np_argmax_spec (xs : List ℝ) (hne : 0 < xs.length) :
    np_argmax xs < xs.length ∧
    ∀ k, k < xs.length → xs.getD k 0 ≤ xs.getD (np_argmax xs) 0 := by
  obtain ⟨hres, hle, hall⟩ := argmax_fold_spec xs (List.range xs.length) 0
  rw [np_argmax]
  constructor
  · rcases hres with h | h
    · rw [h]; exact hne
    · exact List.mem_range.mp h
  · intro k hk
    exact hall k (List.mem_range.mpr hk)

lemma getD_of_get?_eq_some {α : Type} {l : List α} {i : Nat} {x : α}
    (h : l.get? i = some x) (d : α) : l.getD i d = x := by
  rw [List.getD_eq_getElem?_getD, ← List.get?_eq_getElem?, h]
  rfl

lemma suggLoop_eq_map {α β : Type} (tg : List α) (te : List β) (dα : α) (dβ : β) :
    ∀ (idxs : List Nat) (l : List (α × β)), suggLoop idxs tg te = some l →
    l = idxs.map (fun i => (tg.getD i dα, te.getD i dβ)) := by
  intro idxs
  induction idxs with
  | nil =>
    intro l h
    rw [suggLoop] at h
    cases h
    rfl
  | cons i rest ih =>
    intro l h
    cases htg : tg.get? i with
    | none => rw [suggLoop, htg] at h; exact absurd h (by simp)
    | some g =>
      cases hte : te.get? i with
      | none => rw [suggLoop, htg, hte] at h; exact absurd h (by simp)
      | some e =>
        rw [suggLoop, htg, hte] at h
        cases hrest : suggLoop rest tg te with
        | none => rw [hrest] at h; exact absurd h (by simp)
        | some tail =>
          rw [hrest] at h
          have h' : (g, e) :: tail = l := by simpa using h
          rw [← h', List.map_cons, getD_of_get?_eq_some htg dα,
            getD_of_get?_eq_some hte dβ, ih tail hrest]

lemma buildSuggestions_eq (tg : List String) (te : List ℝ) (l : List (String × ℝ))
    (h : buildSuggestions tg te = some l) (htg : tg.length = 10) (hte : te.length = 10) :
    l.map Prod.fst = tg ∧ l.map Prod.snd = te := by
  have hmap := suggLoop_eq_map tg te "" 0 (List.range 10) l h
  constructor
  · rw [hmap, List.map_map]
    rw [show (Prod.fst ∘ fun i => (tg.getD i "", te.getD i 0)) =
      fun i => tg.getD i "" from rfl]
    rw [← htg]
    exact map_range_getD "" tg
  · rw [hmap, List.map_map]
    rw [show (Prod.snd ∘ fun i => (tg.getD i "", te.getD i 0)) =
      fun i => te.getD i 0 from rfl]
    rw [← hte]
    exact map_range_getD 0 te

lemma length_top_ent_ten (ents : List ℝ) (h : 10 ≤ ents.length) :
    (top_ent ents).length = 10 := by
  rw [length_top_ent]
  omega

lemma length_top_guesses_ten (allowed : List String) (ents : List ℝ)
    (h : 10 ≤ ents.length) : (top_guesses allowed ents).length = 10 := by
  rw [length_top_guesses]
  omega

lemma top_ent_sorted (ents : List ℝ) : List.Sorted (· ≤ ·) (top_ent ents) := by
  rw [top_ent, lastTen]
  exact List.Pairwise.sublist (List.drop_sublist _ _) (List.sorted_insertionSort _ ents)

lemma top_ent_mem (ents : List ℝ) : ∀ e ∈ top_ent ents, e ∈ ents := by
  intro e he
  rw [top_ent, lastTen] at he
  exact (List.perm_insertionSort _ ents).subset ((List.drop_sublist _ _).subset he)

/-- C2 (amended): with at least ten allowed guesses, a non-singleton
possibility set and a successful weights lookup, the selector exposes
ten alternatives in which the value column is `top_ent` — the ten
largest entropies sorted ASCENDING (each value is some allowed guess's
entropy, but in general not the entropy of the word it is displayed
with) — while the word column is `top_guesses`, the words at the ten
top-entropy indices listed by descending corpus index; the single
returned best guess is the first allowed guess attaining the maximum
entropy. -/
theorem optimal_guess_best_and_suggestions (allowed_words possible_words : List String)
    (priors : List (String × ℝ)) (ws : List ℝ) (hposs : 1 < possible_words.length)
    (hw : get_weights possible_words priors = some ws)
    (hten : 10 ≤ allowed_words.length) :
    ∃ sugg : List (String × ℝ),
      optimal_guess allowed_words possible_words priors =
        some (allowed_words.getD
          (np_argmax (get_entropies allowed_words possible_words ws)) "", some sugg) ∧
      np_argmax (get_entropies allowed_words possible_words ws) < allowed_words.length ∧
      (∀ k, k < allowed_words.length →
        (get_entropies allowed_words possible_words ws).getD k 0 ≤
          (get_entropies allowed_words possible_words ws).getD
            (np_argmax (get_entropies allowed_words possible_words ws)) 0) ∧
      sugg.map Prod.fst =
        top_guesses allowed_words (get_entropies allowed_words possible_words ws) ∧
      sugg.map Prod.snd = top_ent (get_entropies allowed_words possible_words ws) ∧
      List.Sorted (· ≤ ·) (sugg.map Prod.snd) ∧
      (∀ e ∈ sugg.map Prod.snd, e ∈ get_entropies allowed_words possible_words ws) := by
  have hne : ¬ possible_words.length = 1 := by omega
  have hE : (get_entropies allowed_words possible_words ws).length =
      allowed_words.length := length_get_entropies _ _ _
  obtain ⟨l, hl⟩ := suggLoop_isSome (List.range 10)
    (top_guesses allowed_words (get_entropies allowed_words possible_words ws))
    (top_ent (get_entropies allowed_words possible_words ws))
    (by
      intro i hi
      rw [List.mem_range] at hi
      rw [length_top_guesses, length_top_ent, hE]
      omega)
  have hl' : buildSuggestions
      (top_guesses allowed_words (get_entropies allowed_words possible_words ws))
      (top_ent (get_entropies allowed_words possible_words ws)) = some l := hl
  obtain ⟨hfst, hsnd⟩ := buildSuggestions_eq _ _ l hl'
    (length_top_guesses_ten _ _ (by rw [hE]; exact hten))
    (length_top_ent_ten _ (by rw [hE]; exact hten))
  obtain ⟨hlt, hmax⟩ := np_argmax_spec (get_entropies allowed_words possible_words ws)
    (by omega)
  rw [hE] at hlt
  refine ⟨l, ?_, hlt, ?_, hfst, hsnd, ?_, ?_⟩
  · simp only [optimal_guess, if_neg hne, hw, hl']
  · intro k hk
    exact hmax k (by omega)
  · rw [hsnd]
    exact top_ent_sorted _
  · rw [hsnd]
    exact top_ent_mem _

lemma cex_weights : get_weights cexPossible cexPriors = some [1 / 2, 1 / 2] := by
  rw [get_weights]
  rw [show cexPossible.mapM (fun w => dictLookup w cexPriors) = some [1, 1] from rfl]
  rw [Option.map_some']
  rw [if_neg (by norm_num [List.sum_cons, List.sum_nil] : ¬ ([1, 1] : List ℝ).sum = 0)]
  simp only [List.map_cons, List.map_nil]
  norm_num [List.sum_cons, List.sum_nil]

lemma dist_two (g w1 w2 : String) (p : Nat) :
    get_pattern_distribution g [w1, w2] [1 / 2, 1 / 2] p =
      (if pattern_of g w1 = p then (1 : ℝ) / 2 else 0) +
      (if pattern_of g w2 = p then (1 : ℝ) / 2 else 0) := by
  rw [get_pattern_distribution]
  rw [show ([w1, w2] : List String).length = 2 from rfl]
  rw [Finset.sum_range_succ, Finset.sum_range_succ, Finset.sum_range_zero]
  simp only [List.getD_cons_zero, List.getD_cons_succ]
  rw [zero_add]

lemma entropy_same_bucket (g w1 w2 : String)
    (hp : pattern_of g w1 = pattern_of g w2) (hple : pattern_of g w1 ≤ 242) :
    entropy_of_distribution (get_pattern_distribution g [w1, w2] [1 / 2, 1 / 2]) = 0 := by
  have hd : ∀ p, get_pattern_distribution g [w1, w2] [1 / 2, 1 / 2] p =
      if pattern_of g w1 = p then (1 : ℝ) else 0 := by
    intro p
    rw [dist_two, ← hp]
    split
    · norm_num
    · norm_num
  have hS : distTotal (get_pattern_distribution g [w1, w2] [1 / 2, 1 / 2]) = 1 := by
    rw [distTotal, Finset.sum_congr rfl (fun p _ => hd p),
      Finset.sum_ite_eq (Finset.range 243) (pattern_of g w1) (fun _ => (1 : ℝ))]
    rw [if_pos (Finset.mem_range.mpr (by omega))]
  rw [entropy_of_distribution, hS]
  have hzero : (∑ p ∈ Finset.range 243,
      get_pattern_distribution g [w1, w2] [1 / 2, 1 / 2] p / 1 *
        Real.logb 2 (get_pattern_distribution g [w1, w2] [1 / 2, 1 / 2] p / 1)) = 0 := by
    apply Finset.sum_eq_zero
    intro p hp'
    rw [hd p, div_one]
    split
    · rw [Real.logb_one, mul_zero]
    · rw [zero_mul]
  rw [hzero, neg_zero]

lemma entropy_two_buckets (g w1 w2 : String)
    (hp : pattern_of g w1 ≠ pattern_of g w2)
    (h1 : pattern_of g w1 ≤ 242) (h2 : pattern_of g w2 ≤ 242) :
    entropy_of_distribution (get_pattern_distribution g [w1, w2] [1 / 2, 1 / 2]) = 1 := by
  have hS : distTotal (get_pattern_distribution g [w1, w2] [1 / 2, 1 / 2]) = 1 := by
    rw [distTotal, Finset.sum_congr rfl (fun p _ => dist_two g w1 w2 p),
      Finset.sum_add_distrib,
      Finset.sum_ite_eq (Finset.range 243) (pattern_of g w1) (fun _ => (1 : ℝ) / 2),
      Finset.sum_ite_eq (Finset.range 243) (pattern_of g w2) (fun _ => (1 : ℝ) / 2),
      if_pos (Finset.mem_range.mpr (by omega)), if_pos (Finset.mem_range.mpr (by omega))]
    norm_num
  have hlog : Real.logb 2 ((1 : ℝ) / 2) = -1 := by
    rw [show ((1 : ℝ) / 2) = 2⁻¹ by norm_num, Real.logb_inv,
      Real.logb_self_eq_one one_lt_two]
  rw [entropy_of_distribution, hS]
  have hterm : ∀ p ∈ Finset.range 243,
      get_pattern_distribution g [w1, w2] [1 / 2, 1 / 2] p / 1 *
        Real.logb 2 (get_pattern_distribution g [w1, w2] [1 / 2, 1 / 2] p / 1) =
      (if pattern_of g w1 = p then ((1 : ℝ) / 2) * Real.logb 2 ((1 : ℝ) / 2) else 0) +
      (if pattern_of g w2 = p then ((1 : ℝ) / 2) * Real.logb 2 ((1 : ℝ) / 2) else 0) := by
    intro p hp'
    rw [div_one, dist_two]
    by_cases e1 : pattern_of g w1 = p <;> by_cases e2 : pattern_of g w2 = p
    · exact absurd (e1.trans e2.symm) hp
    · rw [if_pos e1, if_neg e2, if_pos e1, if_neg e2]
      norm_num
    · rw [if_neg e1, if_pos e2, if_neg e1, if_pos e2]
      norm_num
    · rw [if_neg e1, if_neg e2, if_neg e1, if_neg e2]
      norm_num
  rw [Finset.sum_congr rfl hterm, Finset.sum_add_distrib,
    Finset.sum_ite_eq (Finset.range 243) (pattern_of g w1)
      (fun _ => ((1 : ℝ) / 2) * Real.logb 2 ((1 : ℝ) / 2)),
    Finset.sum_ite_eq (Finset.range 243) (pattern_of g w2)
      (fun _ => ((1 : ℝ) / 2) * Real.logb 2 ((1 : ℝ) / 2)),
    if_pos (Finset.mem_range.mpr (by omega)), if_pos (Finset.mem_range.mpr (by omega)),
    hlog]
  norm_num

lemma cex_ents : get_entropies cexAllowed cexPossible [1 / 2, 1 / 2] =
    [0, 0, 0, 0, 0, 0, 0, 0, 0, (1 : ℝ)] := by
  rw [get_entropies,
    if_neg (by norm_num [List.sum_cons, List.sum_nil] : ¬ ([1 / 2, 1 / 2] : List ℝ).sum = 0)]
  simp only [cexAllowed, cexPossible, List.map_cons, List.map_nil]
  rw [entropy_same_bucket "CCCCC" "AAAAA" "BBBBB" (by decide) (by decide),
    entropy_same_bucket "DDDDD" "AAAAA" "BBBBB" (by decide) (by decide),
    entropy_same_bucket "EEEEE" "AAAAA" "BBBBB" (by decide) (by decide),
    entropy_same_bucket "FFFFF" "AAAAA" "BBBBB" (by decide) (by decide),
    entropy_same_bucket "GGGGG" "AAAAA" "BBBBB" (by decide) (by decide),
    entropy_same_bucket "HHHHH" "AAAAA" "BBBBB" (by decide) (by decide),
    entropy_same_bucket "IIIII" "AAAAA" "BBBBB" (by decide) (by decide),
    entropy_same_bucket "JJJJJ" "AAAAA" "BBBBB" (by decide) (by decide),
    entropy_same_bucket "KKKKK" "AAAAA" "BBBBB" (by decide) (by decide),
    entropy_two_buckets "AAAAA" "AAAAA" "BBBBB" (by decide) (by decide) (by decide)]

lemma lastTen_of_le {α : Type} (xs : List α) (h : xs.length ≤ 10) : lastTen xs = xs := by
  rw [lastTen, Nat.sub_eq_zero_of_le h, List.drop_zero]

lemma cex_pysorted : pysorted [0, 0, 0, 0, 0, 0, 0, 0, 0, (1 : ℝ)] =
    [0, 0, 0, 0, 0, 0, 0, 0, 0, 1] :=
  List.eq_of_perm_of_sorted (List.perm_insertionSort _ _)
    (List.sorted_insertionSort _ _) (by norm_num [List.sorted_cons])

lemma cex_top_ent : top_ent [0, 0, 0, 0, 0, 0, 0, 0, 0, (1 : ℝ)] =
    [0, 0, 0, 0, 0, 0, 0, 0, 0, 1] := by
  rw [top_ent, cex_pysorted,
    lastTen_of_le ([0, 0, 0, 0, 0, 0, 0, 0, 0, 1] : List ℝ) (by norm_num)]

lemma cex_top_i : top_i [0, 0, 0, 0, 0, 0, 0, 0, 0, (1 : ℝ)] =
    [9, 8, 7, 6, 5, 4, 3, 2, 1, 0] := by
  rw [top_i, lastTen_of_le _ (by rw [length_np_argsort]; exact Nat.le_refl 10)]
  have hperm : List.Perm
      ((np_argsort [0, 0, 0, 0, 0, 0, 0, 0, 0, (1 : ℝ)]).insertionSort (· ≤ ·))
      [0, 1, 2, 3, 4, 5, 6, 7, 8, 9] := by
    refine (List.perm_insertionSort _ _).trans ?_
    rw [np_argsort]
    refine (List.perm_insertionSort _ _).trans ?_
    rw [show ([0, 0, 0, 0, 0, 0, 0, 0, 0, (1 : ℝ)]).length = 10 from rfl]
    rw [show List.range 10 = [0, 1, 2, 3, 4, 5, 6, 7, 8, 9] from by decide]
  have heq : (np_argsort [0, 0, 0, 0, 0, 0, 0, 0, 0, (1 : ℝ)]).insertionSort (· ≤ ·) =
      [0, 1, 2, 3, 4, 5, 6, 7, 8, 9] :=
    List.eq_of_perm_of_sorted hperm (List.sorted_insertionSort _ _) (by decide)
  rw [heq]
  rfl

lemma cex_argmax : np_argmax [0, 0, 0, 0, 0, 0, 0, 0, 0, (1 : ℝ)] = 9 := by
  obtain ⟨hlt, hmax⟩ := np_argmax_spec [0, 0, 0, 0, 0, 0, 0, 0, 0, (1 : ℝ)] (by norm_num)
  have h9 := hmax 9 (by norm_num)
  rw [show ([0, 0, 0, 0, 0, 0, 0, 0, 0, (1 : ℝ)]).getD 9 0 = 1 from rfl] at h9
  rw [show ([0, 0, 0, 0, 0, 0, 0, 0, 0, (1 : ℝ)]).length = 10 from rfl] at hlt
  by_contra hne
  have ha8 : np_argmax [0, 0, 0, 0, 0, 0, 0, 0, 0, (1 : ℝ)] ≤ 8 := by omega
  set a := np_argmax [0, 0, 0, 0, 0, 0, 0, 0, 0, (1 : ℝ)] with ha
  have hzero : ([0, 0, 0, 0, 0, 0, 0, 0, 0, (1 : ℝ)]).getD a 0 = 0 := by
    interval_cases a <;> rfl
  rw [hzero] at h9
  norm_num at h9

/-- C2 counterexample: with ten allowed guesses where only the last one
("AAAAA", entropy 1 bit) distinguishes the two equally-weighted
possibilities, the exposed alternatives pair "AAAAA" with the value 0
(its true entropy is 1) and list the values ascending — refuting
"ordered by entropy descending, each paired with its own entropy value"
at this concrete input (the returned best guess is still "AAAAA"). -/
theorem optimal_guess_mispairs_suggestions :
    optimal_guess cexAllowed cexPossible cexPriors =
      some ("AAAAA", some [("AAAAA", 0), ("KKKKK", 0), ("JJJJJ", 0), ("IIIII", 0),
        ("HHHHH", 0), ("GGGGG", 0), ("FFFFF", 0), ("EEEEE", 0), ("DDDDD", 0),
        ("CCCCC", 1)]) ∧
    get_entropies cexAllowed cexPossible [1 / 2, 1 / 2] =
      [0, 0, 0, 0, 0, 0, 0, 0, 0, 1] ∧
    (0 : ℝ) ≠ 1 := by
  refine ⟨?_, cex_ents, by norm_num⟩
  have htg : top_guesses cexAllowed [0, 0, 0, 0, 0, 0, 0, 0, 0, (1 : ℝ)] =
      ["AAAAA", "KKKKK", "JJJJJ", "IIIII", "HHHHH", "GGGGG", "FFFFF", "EEEEE",
        "DDDDD", "CCCCC"] := by
    rw [top_guesses, cex_top_i]
    rfl
  have hbs : buildSuggestions
      ["AAAAA", "KKKKK", "JJJJJ", "IIIII", "HHHHH", "GGGGG", "FFFFF", "EEEEE",
        "DDDDD", "CCCCC"] [0, 0, 0, 0, 0, 0, 0, 0, 0, (1 : ℝ)] =
      some [("AAAAA", 0), ("KKKKK", 0), ("JJJJJ", 0), ("IIIII", 0), ("HHHHH", 0),
        ("GGGGG", 0), ("FFFFF", 0), ("EEEEE", 0), ("DDDDD", 0), ("CCCCC", 1)] := rfl
  simp only [optimal_guess, if_neg (by decide : ¬ cexPossible.length = 1), cex_weights,
    cex_ents, cex_top_ent, htg, hbs, cex_argmax]
  rfl

/-- Concrete instance discharging the hypotheses of
`optimal_guess_best_and_suggestions`. -/
theorem optimal_guess_best_and_suggestions_witness :
    (optimal_guess cexAllowed cexPossible cexPriors).isSome = true ∧
    np_argmax (get_entropies cexAllowed cexPossible [1 / 2, 1 / 2]) <
      cexAllowed.length := by
  obtain ⟨sugg, heq, hlt, hmax, hfst, hsnd, hsorted, hmem⟩ :=
    optimal_guess_best_and_suggestions cexAllowed cexPossible cexPriors [1 / 2, 1 / 2]
      (by decide) cex_weights (by decide)
  exact ⟨by rw [heq]; rfl, hlt⟩

end Cheatdle
